import Mathlib

/-!
Verification of the in-memory filetree index
(`kythe/go/services/filetree/filetree.go`).

The Go code is shallowly embedded: the nested Go maps
`corpus -> root -> dirPath -> FileDirectory` become nested association
lists, pointer mutation becomes explicit state passing keyed by the map
keys, and the one recursive helper (`ensureDir`) carries an explicit fuel
argument (the code's recursion is on `filepath.Dir`, which we prove
strictly shortens every path the code actually passes, so the fuel chosen
by `AddFile` is never exhausted).

The Go standard library's lexical path functions `filepath.Join`,
`filepath.Dir` and `filepath.Clean` (Unix separator) are implemented here
over `List Char` following their documented semantics.
-/

namespace Filetree

/-! ## Association lists standing for Go maps -/

/-- Lookup in an association list, mirroring a Go map read (`l[k]`,
missing keys give the zero value, modelled as `none`). -/
def getA {α : Type} : List (String × α) → String → Option α
  | [], _ => none
  | (k', v) :: rest, k => if k' = k then some v else getA rest k

/-- Update in an association list, mirroring a Go map write (`l[k] = v`):
replace the binding if the key is present, otherwise append it. -/
def setA {α : Type} : List (String × α) → String → α → List (String × α)
  | [], k, v => [(k, v)]
  | (k', v') :: rest, k, v =>
      if k' = k then (k, v) :: rest else (k', v') :: setA rest k v

theorem getA_setA_self {α : Type} (l : List (String × α)) (k : String) (v : α) :
    getA (setA l k v) k = some v := by
  induction l with
  | nil => simp [getA, setA]
  | cons p rest ih =>
      obtain ⟨k', v'⟩ := p
      by_cases h : k' = k
      · simp [getA, setA, h]
      · simp [getA, setA, h, ih]

theorem getA_setA_ne {α : Type} (l : List (String × α)) (k k' : String) (v : α)
    (h : k' ≠ k) : getA (setA l k v) k' = getA l k' := by
  induction l with
  | nil => simp [getA, setA, Ne.symm h]
  | cons p rest ih =>
      obtain ⟨k₀, v₀⟩ := p
      by_cases h₀ : k₀ = k
      · subst h₀
        simp [getA, setA, Ne.symm h]
      · simp only [setA, if_neg h₀, getA]
        by_cases h₁ : k₀ = k'
        · simp [h₁]
        · simp [h₁, ih]

theorem setA_getA_self {α : Type} (l : List (String × α)) (k : String) (v : α)
    (h : getA l k = some v) : setA l k v = l := by
  induction l with
  | nil => simp [getA] at h
  | cons p rest ih =>
      obtain ⟨k₀, v₀⟩ := p
      by_cases h₀ : k₀ = k
      · subst h₀
        simp [getA] at h
        simp [setA, h]
      · simp [getA, h₀] at h
        simp [setA, h₀, ih h]

theorem getA_isSome_iff {α : Type} (l : List (String × α)) (k : String) :
    (getA l k).isSome ↔ k ∈ l.map Prod.fst := by
  induction l with
  | nil => simp [getA]
  | cons p rest ih =>
      obtain ⟨k₀, v₀⟩ := p
      by_cases h₀ : k₀ = k
      · simp [getA, h₀]
      · simp [getA, h₀, ih, Ne.symm h₀]

theorem getA_mem {α : Type} (l : List (String × α)) (k : String) (v : α)
    (h : getA l k = some v) : (k, v) ∈ l := by
  induction l with
  | nil => simp [getA] at h
  | cons p rest ih =>
      obtain ⟨k₀, v₀⟩ := p
      by_cases h₀ : k₀ = k
      · subst h₀
        simp [getA] at h
        simp [h]
      · simp [getA, h₀] at h
        exact List.mem_cons_of_mem _ (ih h)

theorem mem_getA_nodup {α : Type} (l : List (String × α)) (k : String) (v : α)
    (hnd : (l.map Prod.fst).Nodup) (h : (k, v) ∈ l) : getA l k = some v := by
  induction l with
  | nil => simp at h
  | cons p rest ih =>
      obtain ⟨k₀, v₀⟩ := p
      simp only [List.map_cons, List.nodup_cons] at hnd
      rcases List.mem_cons.mp h with h | h
      · cases h
        simp [getA]
      · have hk : k₀ ≠ k := by
          intro hh
          exact hnd.1 (hh ▸ (List.mem_map.mpr ⟨(k, v), h, rfl⟩))
        simp [getA, hk, ih hnd.2 h]

theorem setA_keys {α : Type} (l : List (String × α)) (k : String) (v : α) :
    (setA l k v).map Prod.fst =
      if k ∈ l.map Prod.fst then l.map Prod.fst else l.map Prod.fst ++ [k] := by
  induction l with
  | nil => simp [setA]
  | cons p rest ih =>
      obtain ⟨k₀, v₀⟩ := p
      by_cases h₀ : k₀ = k
      · subst h₀
        simp [setA]
      · simp only [setA, if_neg h₀, List.map_cons, ih]
        by_cases hmem : k ∈ rest.map Prod.fst
        · simp [hmem, Ne.symm h₀]
        · simp [hmem, Ne.symm h₀]

theorem setA_keys_nodup {α : Type} (l : List (String × α)) (k : String) (v : α)
    (h : (l.map Prod.fst).Nodup) : ((setA l k v).map Prod.fst).Nodup := by
  rw [setA_keys]
  by_cases hmem : k ∈ l.map Prod.fst
  · simpa [hmem]
  · simp only [if_neg hmem]
    refine List.Nodup.append h (List.nodup_singleton k) ?_
    intro a ha hb
    simp at hb
    subst hb
    exact hmem ha

theorem mem_setA {α : Type} (l : List (String × α)) (k : String) (v : α)
    (p : String × α) (h : p ∈ setA l k v) : p ∈ l ∨ p = (k, v) := by
  induction l with
  | nil => simp [setA] at h; simp [h]
  | cons q rest ih =>
      obtain ⟨k₀, v₀⟩ := q
      by_cases h₀ : k₀ = k
      · simp only [setA, if_pos h₀] at h
        rcases List.mem_cons.mp h with h | h
        · exact Or.inr h
        · exact Or.inl (List.mem_cons_of_mem _ h)
      · simp only [setA, if_neg h₀] at h
        rcases List.mem_cons.mp h with h | h
        · exact Or.inl (by simp [h])
        · rcases ih h with h | h
          · exact Or.inl (List.mem_cons_of_mem _ h)
          · exact Or.inr h

/-! ## Lexical path functions (Go `path/filepath`, Unix separator)

`splitSlash` is `strings.Split(s, "/")`; `cleanList` is the documented
algorithm of `filepath.Clean`; `dirOfList` is `filepath.Dir` (drop
everything after the final separator, then clean; `"."` when there is no
separator). -/

/-- Split a character list on `'/'` (Go's `strings.Split` on one-byte
separator); always returns a nonempty list of separator-free segments. -/
def splitSlash : List Char → List (List Char)
  | [] => [[]]
  | c :: cs =>
      if c = '/' then [] :: splitSlash cs
      else
        match splitSlash cs with
        | [] => [[c]]
        | s :: ss => (c :: s) :: ss

/-- Join segments with `'/'` (Go's `strings.Join` with separator "/"). -/
def intercalateSlash : List (List Char) → List Char
  | [] => []
  | [s] => s
  | s :: ss => s ++ '/' :: intercalateSlash ss

/-- One pass of `filepath.Clean`'s documented rules over the segments:
drop empty and `"."` segments; `".."` removes the preceding segment when
one exists (and is not itself `".."`), and is dropped at the start of a
rooted path. The accumulator is kept reversed. -/
def cleanSegs (rooted : Bool) : List (List Char) → List (List Char) → List (List Char)
  | acc, [] => acc.reverse
  | acc, s :: rest =>
      if s = [] ∨ s = ['.'] then cleanSegs rooted acc rest
      else if s = ['.', '.'] then
        match acc with
        | [] => if rooted then cleanSegs rooted [] rest
                else cleanSegs rooted [['.', '.']] rest
        | a :: acc' =>
            if a = ['.', '.'] then cleanSegs rooted (s :: a :: acc') rest
            else cleanSegs rooted acc' rest
      else cleanSegs rooted (s :: acc) rest

/-- Go's `filepath.Clean` (Unix), by its documented lexical rules. -/
def cleanList (p : List Char) : List Char :=
  match p with
  | [] => ['.']
  | c :: cs =>
      if c = '/' then
        '/' :: intercalateSlash (cleanSegs true [] (splitSlash (c :: cs)))
      else
        let out := cleanSegs false [] (splitSlash (c :: cs))
        if out = [] then ['.'] else intercalateSlash out

/-- Go's `filepath.Dir` (Unix): keep everything up to and including the
final separator, then clean; `"."` when the path has no separator. -/
def dirOfList (p : List Char) : List Char :=
  match splitSlash p with
  | [] => ['.']
  | [_] => ['.']
  | segs => cleanList (intercalateSlash segs.dropLast ++ ['/'])

/-- String wrapper for `filepath.Clean`. -/
def clean (s : String) : String := ⟨cleanList s.data⟩

/-- String wrapper for `filepath.Dir`. -/
def dirOf (s : String) : String := ⟨dirOfList s.data⟩

/-- Go's `filepath.Join("/", s)`: join the two elements with the
separator and clean the result. -/
def joinRoot (s : String) : String := clean ("//" ++ s)

/-! ## Structure of cleaned rooted paths

A cleaned rooted path is either `"/"` or `'/'` followed by nonempty,
separator-free, non-`"."`/`".."` segments joined by `'/'`.  `joinRoot`
always produces such a path, and `dirOf` maps such a path (other than
`"/"`) to a strictly shorter such path by dropping the last segment. -/

/-- A segment that survives cleaning in a rooted path. -/
def GoodSeg (s : List Char) : Prop :=
  s ≠ [] ∧ '/' ∉ s ∧ s ≠ ['.'] ∧ s ≠ ['.', '.']

instance (s : List Char) : Decidable (GoodSeg s) := by
  unfold GoodSeg
  infer_instance

/-- A nonempty list of good segments. -/
def GoodSegs (ss : List (List Char)) : Prop :=
  ss ≠ [] ∧ ∀ s ∈ ss, GoodSeg s

instance (ss : List (List Char)) : Decidable (GoodSegs ss) := by
  unfold GoodSegs
  infer_instance

/-- Characterization of the outputs of `cleanList` on rooted inputs. -/
def CleanRootedL (p : List Char) : Prop :=
  p = ['/'] ∨ ∃ segs, GoodSegs segs ∧ p = '/' :: intercalateSlash segs

/-- String-level version of `CleanRootedL`. -/
def CleanRootedS (p : String) : Prop := CleanRootedL p.data

/-- Drop the empty segments of a list of segments. -/
def filterNonempty : List (List Char) → List (List Char)
  | [] => []
  | s :: rest => if s = [] then filterNonempty rest else s :: filterNonempty rest

theorem splitSlash_ne_nil (p : List Char) : splitSlash p ≠ [] := by
  cases p with
  | nil => simp [splitSlash]
  | cons c cs =>
      by_cases h : c = '/'
      · simp [splitSlash, h]
      · simp only [splitSlash, if_neg h]
        cases splitSlash cs <;> simp

theorem mem_splitSlash (p : List Char) (s : List Char) (h : s ∈ splitSlash p) :
    '/' ∉ s := by
  induction p generalizing s with
  | nil => simp [splitSlash] at h; simp [h]
  | cons c cs ih =>
      by_cases hc : c = '/'
      · simp only [splitSlash, if_pos hc] at h
        rcases List.mem_cons.mp h with h | h
        · simp [h]
        · exact ih s h
      · simp only [splitSlash, if_neg hc] at h
        rcases hsp : splitSlash cs with _ | ⟨s₀, ss⟩
        · exact absurd hsp (splitSlash_ne_nil cs)
        · rw [hsp] at h
          rcases List.mem_cons.mp h with h | h
          · subst h
            intro hmem
            rcases List.mem_cons.mp hmem with h | h
            · exact hc h.symm
            · exact ih s₀ (hsp ▸ List.mem_cons_self s₀ ss) h
          · exact ih s (hsp ▸ List.mem_cons_of_mem s₀ h)

theorem splitSlash_cons_slash (p : List Char) :
    splitSlash ('/' :: p) = [] :: splitSlash p := by
  simp [splitSlash]

theorem splitSlash_no_slash (s : List Char) (h : '/' ∉ s) :
    splitSlash s = [s] := by
  induction s with
  | nil => simp [splitSlash]
  | cons c cs ih =>
      have hc : c ≠ '/' := fun hh => h (hh ▸ List.mem_cons_self c cs)
      have hcs : '/' ∉ cs := fun hh => h (List.mem_cons_of_mem c hh)
      simp [splitSlash, hc, ih hcs]

theorem splitSlash_append (s t : List Char) (h : '/' ∉ s) :
    splitSlash (s ++ '/' :: t) = s :: splitSlash t := by
  induction s with
  | nil => simp [splitSlash_cons_slash]
  | cons c cs ih =>
      have hc : c ≠ '/' := fun hh => h (hh ▸ List.mem_cons_self c cs)
      have hcs : '/' ∉ cs := fun hh => h (List.mem_cons_of_mem c hh)
      simp only [List.cons_append, splitSlash, if_neg hc, List.append_eq]
      rw [ih hcs]

theorem splitSlash_intercalate (ss : List (List Char))
    (hs : ∀ s ∈ ss, '/' ∉ s) (hne : ss ≠ []) :
    splitSlash (intercalateSlash ss) = ss := by
  induction ss with
  | nil => exact absurd rfl hne
  | cons s rest ih =>
      cases rest with
      | nil =>
          simpa [intercalateSlash] using
            splitSlash_no_slash s (hs s (List.mem_cons_self s []))
      | cons s₁ rest₁ =>
          have hstep : intercalateSlash (s :: s₁ :: rest₁) =
              s ++ '/' :: intercalateSlash (s₁ :: rest₁) := rfl
          rw [hstep, splitSlash_append s _ (hs s (List.mem_cons_self _ _)),
            ih (fun x hx => hs x (List.mem_cons_of_mem s hx)) (by simp)]

theorem intercalate_append_last (ss : List (List Char)) (t : List Char)
    (hne : ss ≠ []) :
    intercalateSlash (ss ++ [t]) = intercalateSlash ss ++ '/' :: t := by
  induction ss with
  | nil => exact absurd rfl hne
  | cons s rest ih =>
      cases rest with
      | nil => rfl
      | cons s₁ rest₁ =>
          have h₁ : intercalateSlash ((s :: s₁ :: rest₁) ++ [t]) =
              s ++ '/' :: intercalateSlash ((s₁ :: rest₁) ++ [t]) := rfl
          rw [h₁, ih (by simp)]
          simp [intercalateSlash]

theorem filterNonempty_append (a b : List (List Char)) :
    filterNonempty (a ++ b) = filterNonempty a ++ filterNonempty b := by
  induction a with
  | nil => rfl
  | cons s rest ih =>
      by_cases h : s = []
      · simp [filterNonempty, h, ih]
      · simp [filterNonempty, h, ih]

theorem filterNonempty_eq_self (l : List (List Char)) (h : ∀ s ∈ l, s ≠ []) :
    filterNonempty l = l := by
  induction l with
  | nil => rfl
  | cons s rest ih =>
      simp [filterNonempty, h s (List.mem_cons_self s rest),
        ih (fun x hx => h x (List.mem_cons_of_mem s hx))]

theorem cleanSegs_goodOrEmpty (rooted : Bool) (xs acc : List (List Char))
    (h : ∀ s ∈ xs, s = [] ∨ GoodSeg s) :
    cleanSegs rooted acc xs = acc.reverse ++ filterNonempty xs := by
  induction xs generalizing acc with
  | nil => simp [cleanSegs, filterNonempty]
  | cons s rest ih =>
      rcases h s (List.mem_cons_self s rest) with hs | hs
      · subst hs
        simp [cleanSegs, filterNonempty,
          ih acc (fun x hx => h x (List.mem_cons_of_mem _ hx))]
      · obtain ⟨h₁, _, h₂, h₃⟩ := hs
        have hcond : ¬(s = [] ∨ s = ['.']) := by
          intro hh; rcases hh with hh | hh
          · exact h₁ hh
          · exact h₂ hh
        simp only [cleanSegs, if_neg hcond, if_neg h₃, filterNonempty, if_neg h₁]
        rw [ih (s :: acc) (fun x hx => h x (List.mem_cons_of_mem _ hx))]
        simp

theorem cleanSegs_good (xs : List (List Char)) (acc : List (List Char))
    (hacc : ∀ a ∈ acc, GoodSeg a) (hxs : ∀ s ∈ xs, '/' ∉ s) :
    ∀ s ∈ cleanSegs true acc xs, GoodSeg s := by
  induction xs generalizing acc with
  | nil =>
      intro s hmem
      simp only [cleanSegs, List.mem_reverse] at hmem
      exact hacc s hmem
  | cons s rest ih =>
      by_cases hcond : s = [] ∨ s = ['.']
      · simpa [cleanSegs, hcond] using
          ih acc hacc (fun x hx => hxs x (List.mem_cons_of_mem _ hx))
      · by_cases hdd : s = ['.', '.']
        · cases acc with
          | nil =>
              simpa [cleanSegs, hcond, hdd] using
                ih [] (by simp) (fun x hx => hxs x (List.mem_cons_of_mem _ hx))
          | cons a acc' =>
              have ha : GoodSeg a := hacc a (List.mem_cons_self a acc')
              have hane : a ≠ ['.', '.'] := ha.2.2.2
              simp only [cleanSegs, if_neg hcond, if_pos hdd, if_neg hane]
              exact ih acc' (fun x hx => hacc x (List.mem_cons_of_mem _ hx))
                (fun x hx => hxs x (List.mem_cons_of_mem _ hx))
        · have hgood : GoodSeg s := by
            refine ⟨?_, hxs s (List.mem_cons_self s rest), ?_, hdd⟩
            · intro hh; exact hcond (Or.inl hh)
            · intro hh; exact hcond (Or.inr hh)
          simp only [cleanSegs, if_neg hcond, if_neg hdd]
          refine ih (s :: acc) ?_ (fun x hx => hxs x (List.mem_cons_of_mem _ hx))
          intro a hmem
          rcases List.mem_cons.mp hmem with h | h
          · exact h ▸ hgood
          · exact hacc a h

theorem cleanList_rooted (p : List Char) : CleanRootedL (cleanList ('/' :: p)) := by
  have h : cleanList ('/' :: p) =
      '/' :: intercalateSlash (cleanSegs true [] (splitSlash ('/' :: p))) := by
    simp [cleanList]
  rcases hout : cleanSegs true [] (splitSlash ('/' :: p)) with _ | ⟨s, ss⟩
  · left
    rw [h, hout]
    rfl
  · right
    refine ⟨s :: ss, ⟨by simp, ?_⟩, by rw [h, hout]⟩
    intro x hx
    exact cleanSegs_good (splitSlash ('/' :: p)) [] (by simp)
      (fun y hy => mem_splitSlash _ y hy) x (hout ▸ hx)

theorem cleanList_slash_cons (p : List Char) :
    cleanList ('/' :: p) =
      '/' :: intercalateSlash (cleanSegs true [] (splitSlash ('/' :: p))) := by
  simp [cleanList]

theorem filterNonempty_nil_cons (l : List (List Char)) :
    filterNonempty ([] :: l) = filterNonempty l := by
  simp [filterNonempty]

theorem dirOfList_cons₂ (p : List Char) (x y : List Char) (l : List (List Char))
    (h : splitSlash p = x :: y :: l) :
    dirOfList p = cleanList (intercalateSlash (x :: y :: l).dropLast ++ ['/']) := by
  rw [dirOfList, h]

theorem dirOfList_rooted (segs : List (List Char)) (hsegs : GoodSegs segs) :
    dirOfList ('/' :: intercalateSlash segs) =
      '/' :: intercalateSlash segs.dropLast := by
  obtain ⟨hne, hgood⟩ := hsegs
  have hnoslash : ∀ s ∈ segs, '/' ∉ s := fun s hs => (hgood s hs).2.1
  have hsplit : splitSlash ('/' :: intercalateSlash segs) = [] :: segs := by
    rw [splitSlash_cons_slash, splitSlash_intercalate segs hnoslash hne]
  cases segs with
  | nil => exact absurd rfl hne
  | cons s₀ rest =>
      cases rest with
      | nil =>
          rw [dirOfList, hsplit]
          rfl
      | cons s₁ rest₁ =>
          rw [dirOfList_cons₂ _ [] s₀ (s₁ :: rest₁) hsplit]
          have hdl : ([] :: s₀ :: s₁ :: rest₁).dropLast =
              [] :: (s₀ :: s₁ :: rest₁).dropLast := rfl
          have hdlne : (s₀ :: s₁ :: rest₁).dropLast ≠ [] := by
            simp [List.dropLast]
          rcases hds : (s₀ :: s₁ :: rest₁).dropLast with _ | ⟨d₀, ds⟩
          · exact absurd hds hdlne
          · have hinter : intercalateSlash ([] :: d₀ :: ds) =
                '/' :: intercalateSlash (d₀ :: ds) := rfl
            rw [hdl, hds, hinter]
            have hall : ∀ x ∈ d₀ :: ds, GoodSeg x := by
              intro x hx
              exact hgood x (List.dropLast_subset _ (hds ▸ hx))
            have happ : ('/' :: intercalateSlash (d₀ :: ds)) ++ ['/'] =
                '/' :: intercalateSlash ((d₀ :: ds) ++ [[]]) := by
              rw [intercalate_append_last _ _ (by simp)]
              rfl
            rw [happ]
            have hsplit₂ :
                splitSlash ('/' :: intercalateSlash ((d₀ :: ds) ++ [[]])) =
                  [] :: ((d₀ :: ds) ++ [[]]) := by
              rw [splitSlash_cons_slash,
                splitSlash_intercalate _ ?_ (by simp)]
              intro x hx
              rcases List.mem_append.mp hx with hx | hx
              · exact (hall x hx).2.1
              · simp at hx
                simp [hx]
            have hgoe : ∀ x ∈ [] :: ((d₀ :: ds) ++ [[]]), x = [] ∨ GoodSeg x := by
              intro x hx
              rcases List.mem_cons.mp hx with hx | hx
              · exact Or.inl hx
              · rcases List.mem_append.mp hx with hx | hx
                · exact Or.inr (hall x hx)
                · simp at hx
                  exact Or.inl hx
            rw [cleanList_slash_cons, hsplit₂]
            have hcs : cleanSegs true [] ([] :: ((d₀ :: ds) ++ [[]])) = d₀ :: ds := by
              rw [cleanSegs_goodOrEmpty true _ [] hgoe]
              rw [List.reverse_nil, List.nil_append, filterNonempty_nil_cons,
                filterNonempty_append,
                filterNonempty_eq_self _ (fun x hx => (hall x hx).1)]
              simp [filterNonempty]
            rw [hcs]

theorem intercalate_dropLast_length (segs : List (List Char))
    (hne : segs ≠ []) (hlast : ∀ s ∈ segs, s ≠ []) :
    (intercalateSlash segs.dropLast).length < (intercalateSlash segs).length := by
  rcases List.eq_nil_or_concat segs with h | ⟨ds, t, h⟩
  · exact absurd h hne
  · rw [List.concat_eq_append] at h
    subst h
    rw [List.dropLast_concat]
    have htne : t ≠ [] := hlast t (by simp)
    cases ds with
    | nil =>
        simp only [List.nil_append, intercalateSlash]
        cases t with
        | nil => exact absurd rfl htne
        | cons c cs => simp
    | cons d₀ ds₁ =>
        rw [intercalate_append_last _ _ (by simp)]
        simp

/-- Good segment lists are closed under `dropLast` (when nonempty). -/
theorem goodSegs_dropLast (segs : List (List Char)) (h : GoodSegs segs)
    (hne : segs.dropLast ≠ []) : GoodSegs segs.dropLast :=
  ⟨hne, fun s hs => h.2 s (List.dropLast_subset _ hs)⟩

theorem string_length_mk (l : List Char) : (String.mk l).length = l.length := rfl

theorem slash_data : ("/" : String).data = ['/'] := rfl

/-- On the cleaned rooted paths the index actually stores, `filepath.Dir`
stays cleaned-rooted and strictly shortens the path, except at `"/"`. -/
theorem dirOf_cleanRooted (p : String) (h : CleanRootedS p) (hne : p ≠ "/") :
    CleanRootedS (dirOf p) ∧ (dirOf p).length < p.length := by
  rcases h with h | ⟨segs, hsegs, hdata⟩
  · exact absurd (String.ext h) hne
  · have hdir : (dirOf p).data = '/' :: intercalateSlash segs.dropLast := by
      show dirOfList p.data = _
      rw [hdata, dirOfList_rooted segs hsegs]
    constructor
    · rcases hdl : segs.dropLast with _ | ⟨d₀, ds⟩
      · left
        rw [hdir, hdl]
        rfl
      · right
        exact ⟨segs.dropLast, goodSegs_dropLast segs hsegs (by rw [hdl]; simp),
          by rw [hdir, hdl]⟩
    · have h₁ : (dirOf p).length = (intercalateSlash segs.dropLast).length + 1 := by
        show (dirOf p).data.length = _
        rw [hdir]; simp
      have h₂ : p.length = (intercalateSlash segs).length + 1 := by
        show p.data.length = _
        rw [hdata]; simp
      rw [h₁, h₂]
      have := intercalate_dropLast_length segs hsegs.1
        (fun s hs => (hsegs.2 s hs).1)
      omega

theorem dirOf_root : dirOf "/" = "/" := by decide

/-- Every path `AddFile` hands to `ensureDir` is a cleaned rooted path. -/
theorem joinRoot_cleanRooted (s : String) : CleanRootedS (joinRoot s) := by
  show CleanRootedL (cleanList ("//" ++ s).data)
  have h : ("//" ++ s).data = '/' :: '/' :: s.data := by
    rw [String.data_append]
    rfl
  rw [h]
  exact cleanList_rooted ('/' :: s.data)

/-- Cleaned rooted paths are closed under `dirOf`. -/
theorem cleanRooted_dirOf (p : String) (h : CleanRootedS p) :
    CleanRootedS (dirOf p) := by
  by_cases hne : p = "/"
  · subst hne
    rw [dirOf_root]
    exact h
  · exact (dirOf_cleanRooted p h hne).1

/-- Iterates of `dirOf` from a cleaned rooted path stay cleaned-rooted
and never get longer. -/
theorem chain_cleanRooted (p : String) (h : CleanRootedS p) (k : ℕ) :
    CleanRootedS (dirOf^[k] p) ∧ (dirOf^[k] p).length ≤ p.length := by
  induction k with
  | zero => exact ⟨h, le_rfl⟩
  | succ k ih =>
      rw [Function.iterate_succ_apply']
      refine ⟨cleanRooted_dirOf _ ih.1, ?_⟩
      by_cases hne : dirOf^[k] p = "/"
      · rw [hne, dirOf_root, ← hne]
        exact ih.2
      · exact le_trans (le_of_lt (dirOf_cleanRooted _ ih.1 hne).2) ih.2

/-- The root is a fixed point of the whole `dirOf` chain. -/
theorem chain_root (k : ℕ) : dirOf^[k] "/" = "/" :=
  Function.iterate_fixed dirOf_root k

/-- A cleaned rooted path is nonempty. -/
theorem cleanRooted_length_pos (p : String) (h : CleanRootedS p) :
    1 ≤ p.length := by
  rcases h with h | ⟨segs, _, hdata⟩
  · show 1 ≤ p.data.length
    rw [h]; simp
  · show 1 ≤ p.data.length
    rw [hdata]; simp

/-! ## Data model (`filetree.go`) -/

/-- The (corpus, root, path) identity of a file (`spb.VName`, restricted
to the fields the filetree reads). -/
structure VName where
  corpus : String
  root : String
  path : String
  deriving DecidableEq, Repr

/-- One directory record (`srvpb.FileDirectory`): the repeated proto
fields `FileTicket` and `Subdirectory`, kept as Go slices. -/
structure FileDirectory where
  fileTicket : List String
  subdirectory : List String
  deriving DecidableEq, Repr

/-- The zero `FileDirectory` allocated by `ensureDir`. -/
def emptyDir : FileDirectory := ⟨[], []⟩

/-- Modelled from the spec: the `kytheuri` package (not under `src/`)
renders a structured (corpus, root, path) identity as an opaque, stable
reference string used as the set member for files and subdirectories
(`kytheuri.URI{...}.String()`). -/
def uriString (corpus root path : String) : String :=
  "kythe://" ++ corpus ++ "?root=" ++ root ++ "#" ++ path

/-- Modelled from the spec: `kytheuri.ToString` applied to a file's
VName, the file's display reference string. -/
def kytheuriToString (v : VName) : String := uriString v.corpus v.root v.path

/-- One entry of `corpusRoots` output (`srvpb.CorpusRoots_Corpus`). -/
structure CorpusRootsEntry where
  corpus : String
  roots : List String
  deriving DecidableEq, Repr

/-- The filetree `Map`: Go's nested maps
`corpus -> root -> dirPath -> *FileDirectory` as nested association
lists (pointer slots become values keyed by their map keys). -/
structure Map where
  M : List (String × List (String × List (String × FileDirectory)))
  deriving DecidableEq, Repr

/-- `NewMap` returns an empty filetree map. -/
def NewMap : Map := ⟨[]⟩

/-- `addToSet` appends `str` unless it is already present. -/
def addToSet (strs : List String) (str : String) : List String :=
  if str ∈ strs then strs else strs ++ [str]

/-- The `dirPath -> record` map of a (corpus, root), `m.M[corpus][root]`
(a missing corpus behaves as an empty map, as a nil Go map does). -/
def Map.dirs (m : Map) (corpus root : String) :
    Option (List (String × FileDirectory)) :=
  (getA m.M corpus).bind (fun roots => getA roots root)

/-- Read one directory record, `m.M[corpus][root][path]`. -/
def Map.getDir (m : Map) (corpus root path : String) : Option FileDirectory :=
  (m.dirs corpus root).bind (fun dirs => getA dirs path)

/-- Store one directory record (a write through the map slot that a Go
`*FileDirectory` pointer denotes). -/
def Map.setDir (m : Map) (corpus root path : String) (d : FileDirectory) : Map :=
  let roots := (getA m.M corpus).getD []
  let dirs := (getA roots root).getD []
  ⟨setA m.M corpus (setA roots root (setA dirs path d))⟩

/-- `ensureCorpusRoot`: create the nested maps for (corpus, root) when
missing. -/
def Map.ensureCorpusRoot (m : Map) (corpus root : String) : Map :=
  let roots := (getA m.M corpus).getD []
  let dirs := (getA roots root).getD []
  ⟨setA m.M corpus (setA roots root dirs)⟩

/-- `ensureDir`: create the record for `path` and, recursively, its
ancestors, linking each new directory into its parent's `Subdirectory`
set.  The recursion on `filepath.Dir` carries explicit fuel; `AddFile`
passes enough fuel that the zero case is never reached (proved below). -/
def Map.ensureDir (fuel : ℕ) (m : Map) (corpus root path : String) : Map :=
  match fuel with
  | 0 => m
  | fuel + 1 =>
    let m₁ := m.ensureCorpusRoot corpus root
    match m₁.getDir corpus root path with
    | some _ => m₁
    | none =>
      let m₂ := m₁.setDir corpus root path emptyDir
      if path = "/" then m₂
      else
        let parentPath := dirOf path
        let m₃ := Map.ensureDir fuel m₂ corpus root parentPath
        match m₃.getDir corpus root parentPath with
        | some parent =>
            m₃.setDir corpus root parentPath
              { parent with
                subdirectory :=
                  addToSet parent.subdirectory (uriString corpus root path) }
        | none => m₃

/-- The normalized containing directory of a file, as computed by
`AddFile`: `filepath.Dir(filepath.Join("/", file.Path))`. -/
def dirPathOf (file : VName) : String := dirOf (joinRoot file.path)

/-- `AddFile` adds the given file VName to `m`. -/
def Map.AddFile (m : Map) (file : VName) : Map :=
  let ticket := kytheuriToString file
  let path := joinRoot file.path
  let dirP := dirOf path
  let m₁ := Map.ensureDir (dirP.length + 1) m file.corpus file.root dirP
  match m₁.getDir file.corpus file.root dirP with
  | some dir =>
      m₁.setDir file.corpus file.root dirP
        { dir with fileTicket := addToSet dir.fileTicket ticket }
  | none => m₁

/-- `Dir` implements part of the filetree `Service` interface: both the
record and the error are `nil` when the directory is not found. -/
def Map.Dir (m : Map) (corpus root path : String) :
    Option FileDirectory × Option String :=
  match getA m.M corpus with
  | none => (none, none)
  | some roots =>
    match getA roots root with
    | none => (none, none)
    | some dirs => (getA dirs path, none)

/-- `CorporaRoots` implements part of the filetree `Service` interface:
for each corpus, the list of its root keys; never an error. -/
def Map.CorporaRoots (m : Map) : List CorpusRootsEntry × Option String :=
  (m.M.map (fun c => ⟨c.1, c.2.map Prod.fst⟩), none)

/-- One fact from the graphstore scan (`spb.Entry`, the fields the
callback reads). -/
structure Entry where
  source : VName
  factName : String
  factValue : String
  deriving DecidableEq, Repr

/-- Modelled from the spec: the `schema` package's node-kind fact name
(not under `src/`). -/
def nodeKindFact : String := "/kythe/node/kind"

/-- Modelled from the spec: the `schema` package's file node kind (not
under `src/`). -/
def fileKind : String := "file"

/-- `Populate` adds each file node of the scanned graphstore to `m`.
Modelled from the spec: the external `graphstore.Service.Scan` either
fails outright or delivers a sequence of entries to the callback; the
callback inserts the entries whose fact is the node-kind fact with the
file kind value, and `Populate` wraps a scan failure. -/
def Map.Populate (m : Map) (scan : Except String (List Entry)) :
    Except String Map :=
  match scan with
  | Except.error e =>
      Except.error ("failed to Scan GraphStore for directory structure: " ++ e)
  | Except.ok entries =>
      Except.ok (entries.foldl
        (fun acc entry =>
          if entry.factName = nodeKindFact ∧ entry.factValue = fileKind then
            acc.AddFile entry.source
          else acc)
        m)

/-- An index built by a sequence of insertions into a fresh map. -/
def buildIndex (files : List VName) : Map := files.foldl Map.AddFile NewMap

/-- The files set recorded for a directory, with the absent-record
convention `[]` (an absent record serves no files). -/
def filesAt (m : Map) (corpus root path : String) : List String :=
  ((m.getDir corpus root path).getD emptyDir).fileTicket

/-! ## Remote-forwarding client (spec §4.3/§6)

`webClient` and `RegisterHTTPHandlers` are in `filetree.go`, but the
transport they use (`web.Call`, the HTTP mux, JSON/proto codecs) is not
under `src/`.  Modelled from the spec: the transport faithfully carries
the request to the handler and the handler's response back; the client
decodes the response into a zero-valued reply message, so a `nil`
(not-found) record arrives as the zero `FileDirectory`. -/

/-- The `/dir` handler of `RegisterHTTPHandlers` applied to a request,
composed with the modelled transport and the client's zero-valued reply
decoding: an index error becomes a server-error, otherwise the client
receives the record (zero-valued when the index returned not-found). -/
def webClientDir (server : Map) (corpus root path : String) :
    FileDirectory × Option String :=
  match server.Dir corpus root path with
  | (_, some e) => (emptyDir, some e)
  | (d, none) => (d.getD emptyDir, none)

/-- The `/corpusRoots` handler composed with the modelled transport. -/
def webClientCorporaRoots (server : Map) :
    List CorpusRootsEntry × Option String :=
  match server.CorporaRoots with
  | (_, some e) => ([], some e)
  | (cr, none) => (cr, none)

/-! ## State lemmas: `addToSet`, `setDir`, `ensureCorpusRoot` -/

theorem mem_addToSet_self (s : List String) (x : String) : x ∈ addToSet s x := by
  by_cases h : x ∈ s
  · simp [addToSet, h]
  · simp [addToSet, h]

theorem addToSet_of_mem (s : List String) (x : String) (h : x ∈ s) :
    addToSet s x = s := by
  simp [addToSet, h]

theorem mem_addToSet_of_mem (s : List String) (x y : String) (h : y ∈ s) :
    y ∈ addToSet s x := by
  by_cases hx : x ∈ s
  · simpa [addToSet, hx]
  · simp [addToSet, hx, h]

theorem addToSet_nodup (s : List String) (x : String) (h : s.Nodup) :
    (addToSet s x).Nodup := by
  by_cases hx : x ∈ s
  · simpa [addToSet, hx]
  · simp only [addToSet, if_neg hx]
    refine List.Nodup.append h (List.nodup_singleton x) ?_
    intro a ha hb
    simp at hb
    subst hb
    exact hx ha

theorem getA_nil {α : Type} (k : String) : getA ([] : List (String × α)) k = none :=
  rfl

theorem dirs_ensureCorpusRoot (m : Map) (c r c' r' : String) :
    (m.ensureCorpusRoot c r).dirs c' r' =
      if c' = c ∧ r' = r then some ((m.dirs c r).getD [])
      else m.dirs c' r' := by
  by_cases hc : c' = c
  · subst hc
    by_cases hr : r' = r
    · subst hr
      rw [if_pos (show c' = c' ∧ r' = r' from ⟨rfl, rfl⟩)]
      simp only [Map.ensureCorpusRoot, Map.dirs, getA_setA_self, Option.some_bind]
      cases hM : getA m.M c' <;> simp [getA_nil]
    · rw [if_neg (show ¬(c' = c' ∧ r' = r) from fun hh => hr hh.2)]
      simp only [Map.ensureCorpusRoot, Map.dirs, getA_setA_self, Option.some_bind]
      rw [getA_setA_ne _ _ _ _ hr]
      cases hM : getA m.M c' <;> simp [getA_nil]
  · rw [if_neg (show ¬(c' = c ∧ r' = r) from fun hh => hc hh.1)]
    simp only [Map.ensureCorpusRoot, Map.dirs]
    rw [getA_setA_ne _ _ _ _ hc]

theorem getDir_ensureCorpusRoot (m : Map) (c r c' r' q : String) :
    (m.ensureCorpusRoot c r).getDir c' r' q = m.getDir c' r' q := by
  simp only [Map.getDir, dirs_ensureCorpusRoot]
  by_cases h : c' = c ∧ r' = r
  · obtain ⟨hc, hr⟩ := h
    subst hc; subst hr
    rw [if_pos (show c' = c' ∧ r' = r' from ⟨rfl, rfl⟩)]
    cases hd : m.dirs c' r' <;> simp [getA_nil]
  · rw [if_neg h]

theorem dirs_setDir (m : Map) (c r p : String) (d : FileDirectory) (c' r' : String) :
    (m.setDir c r p d).dirs c' r' =
      if c' = c ∧ r' = r then some (setA ((m.dirs c r).getD []) p d)
      else m.dirs c' r' := by
  by_cases hc : c' = c
  · subst hc
    by_cases hr : r' = r
    · subst hr
      rw [if_pos (show c' = c' ∧ r' = r' from ⟨rfl, rfl⟩)]
      simp only [Map.setDir, Map.dirs, getA_setA_self, Option.some_bind]
      cases hM : getA m.M c' <;> simp [getA_nil]
    · rw [if_neg (show ¬(c' = c' ∧ r' = r) from fun hh => hr hh.2)]
      simp only [Map.setDir, Map.dirs, getA_setA_self, Option.some_bind]
      rw [getA_setA_ne _ _ _ _ hr]
      cases hM : getA m.M c' <;> simp [getA_nil]
  · rw [if_neg (show ¬(c' = c ∧ r' = r) from fun hh => hc hh.1)]
    simp only [Map.setDir, Map.dirs]
    rw [getA_setA_ne _ _ _ _ hc]

theorem getDir_setDir (m : Map) (c r p : String) (d : FileDirectory)
    (c' r' q : String) :
    (m.setDir c r p d).getDir c' r' q =
      if c' = c ∧ r' = r ∧ q = p then some d else m.getDir c' r' q := by
  by_cases h : c' = c ∧ r' = r
  · obtain ⟨hc, hr⟩ := h
    subst hc; subst hr
    by_cases hq : q = p
    · subst hq
      simp [Map.getDir, dirs_setDir, getA_setA_self]
    · cases hd : m.dirs c' r' <;>
        simp [Map.getDir, dirs_setDir, getA_setA_ne _ _ _ _ hq, hq, hd, getA_nil]
  · have h₂ : ¬(c' = c ∧ r' = r ∧ q = p) := fun hh => h ⟨hh.1, hh.2.1⟩
    simp [Map.getDir, dirs_setDir, h, h₂]

theorem getDir_some_dirs (m : Map) (c r p : String) (d : FileDirectory)
    (h : m.getDir c r p = some d) :
    ∃ ds, m.dirs c r = some ds ∧ getA ds p = some d := by
  rcases hd : m.dirs c r with _ | ds
  · rw [Map.getDir, hd] at h
    exact absurd h (by simp)
  · rw [Map.getDir, hd, Option.some_bind] at h
    exact ⟨ds, rfl, h⟩

theorem ensureCorpusRoot_self (m : Map) (c r : String)
    (h : m.dirs c r ≠ none) : m.ensureCorpusRoot c r = m := by
  rcases hM : getA m.M c with _ | roots
  · rw [Map.dirs, hM] at h
    exact absurd rfl h
  · rcases hR : getA roots r with _ | ds
    · rw [Map.dirs, hM, Option.some_bind, hR] at h
      exact absurd rfl h
    · simp only [Map.ensureCorpusRoot, hM, Option.getD_some, hR]
      rw [setA_getA_self _ _ _ hR, setA_getA_self _ _ _ hM]

theorem setDir_self (m : Map) (c r p : String) (d : FileDirectory)
    (h : m.getDir c r p = some d) : m.setDir c r p d = m := by
  obtain ⟨ds, hds, hget⟩ := getDir_some_dirs m c r p d h
  rcases hM : getA m.M c with _ | roots
  · rw [Map.dirs, hM] at hds
    exact absurd hds (by simp)
  · rw [Map.dirs, hM, Option.some_bind] at hds
    simp only [Map.setDir, hM, Option.getD_some, hds]
    rw [setA_getA_self _ _ _ hget, setA_getA_self _ _ _ hds,
      setA_getA_self _ _ _ hM]

/-! ## Unfolding lemmas for `ensureDir` -/

theorem ensureDir_zero (m : Map) (c r p : String) :
    Map.ensureDir 0 m c r p = m := rfl

theorem ensureDir_succ_some (fuel : ℕ) (m : Map) (c r p : String)
    (d : FileDirectory) (h : (m.ensureCorpusRoot c r).getDir c r p = some d) :
    Map.ensureDir (fuel + 1) m c r p = m.ensureCorpusRoot c r := by
  rw [Map.ensureDir]
  simp only [h]

theorem ensureDir_succ_none_root (fuel : ℕ) (m : Map) (c r : String)
    (h : (m.ensureCorpusRoot c r).getDir c r "/" = none) :
    Map.ensureDir (fuel + 1) m c r "/" =
      (m.ensureCorpusRoot c r).setDir c r "/" emptyDir := by
  rw [Map.ensureDir]
  simp [h]

theorem ensureDir_succ_none (fuel : ℕ) (m : Map) (c r p : String)
    (h : (m.ensureCorpusRoot c r).getDir c r p = none) (hp : p ≠ "/") :
    Map.ensureDir (fuel + 1) m c r p =
      match
        (Map.ensureDir fuel ((m.ensureCorpusRoot c r).setDir c r p emptyDir)
            c r (dirOf p)).getDir c r (dirOf p) with
      | some parent =>
          (Map.ensureDir fuel ((m.ensureCorpusRoot c r).setDir c r p emptyDir)
              c r (dirOf p)).setDir c r (dirOf p)
            { parent with
              subdirectory :=
                addToSet parent.subdirectory (uriString c r p) }
      | none =>
          Map.ensureDir fuel ((m.ensureCorpusRoot c r).setDir c r p emptyDir)
            c r (dirOf p) := by
  rw [Map.ensureDir]
  simp only [h, if_neg hp]

/-! ## Effect of `ensureDir` on the state -/

theorem filesAt_setDir (m : Map) (c r k : String) (d : FileDirectory)
    (c' r' q : String) :
    filesAt (m.setDir c r k d) c' r' q =
      if c' = c ∧ r' = r ∧ q = k then d.fileTicket else filesAt m c' r' q := by
  unfold filesAt
  rw [getDir_setDir]
  by_cases h : c' = c ∧ r' = r ∧ q = k <;> simp [h]

theorem getDir_setDir_isSome_mono (m : Map) (c r k : String) (d : FileDirectory)
    (c' r' q : String) (h : (m.getDir c' r' q).isSome) :
    ((m.setDir c r k d).getDir c' r' q).isSome := by
  rw [getDir_setDir]
  by_cases hc : c' = c ∧ r' = r ∧ q = k <;> simp [hc, h]

/-- `ensureDir` never touches any (corpus, root) pair other than its
own. -/
theorem dirs_ensureDir_other (fuel : ℕ) :
    ∀ (m : Map) (c r p c' r' : String), ¬(c' = c ∧ r' = r) →
      (Map.ensureDir fuel m c r p).dirs c' r' = m.dirs c' r' := by
  induction fuel with
  | zero => intro m c r p c' r' _; rfl
  | succ fuel ih =>
      intro m c r p c' r' h
      have hecr : (m.ensureCorpusRoot c r).dirs c' r' = m.dirs c' r' := by
        rw [dirs_ensureCorpusRoot, if_neg h]
      rcases hg : (m.ensureCorpusRoot c r).getDir c r p with _ | d
      · by_cases hp : p = "/"
        · subst hp
          rw [ensureDir_succ_none_root fuel m c r hg, dirs_setDir, if_neg h, hecr]
        · rw [ensureDir_succ_none fuel m c r p hg hp]
          rcases hg₃ : (Map.ensureDir fuel
              ((m.ensureCorpusRoot c r).setDir c r p emptyDir) c r
              (dirOf p)).getDir c r (dirOf p) with _ | parent
          · simp only [hg₃]
            rw [ih _ _ _ _ _ _ h, dirs_setDir, if_neg h, hecr]
          · simp only [hg₃]
            rw [dirs_setDir, if_neg h, ih _ _ _ _ _ _ h, dirs_setDir, if_neg h,
              hecr]
      · rw [ensureDir_succ_some fuel m c r p d hg, hecr]

/-- `ensureDir` never changes any `files` set (it creates empty records
and touches only `subdirectory` fields). -/
theorem filesAt_ensureDir (fuel : ℕ) :
    ∀ (m : Map) (c r p c' r' q : String),
      filesAt (Map.ensureDir fuel m c r p) c' r' q = filesAt m c' r' q := by
  induction fuel with
  | zero => intro m c r p c' r' q; rfl
  | succ fuel ih =>
      intro m c r p c' r' q
      rcases hg : (m.ensureCorpusRoot c r).getDir c r p with _ | d
      · have hm₂ : ∀ x y z,
            filesAt ((m.ensureCorpusRoot c r).setDir c r p emptyDir) x y z =
              filesAt m x y z := by
          intro x y z
          rw [filesAt_setDir]
          by_cases hk : x = c ∧ y = r ∧ z = p
          · obtain ⟨hx, hy, hz⟩ := hk
            subst hx; subst hy; subst hz
            rw [if_pos (show x = x ∧ y = y ∧ z = z from ⟨rfl, rfl, rfl⟩)]
            unfold filesAt
            rw [← getDir_ensureCorpusRoot m x y x y z, hg]
            rfl
          · rw [if_neg hk]
            unfold filesAt
            rw [getDir_ensureCorpusRoot]
        by_cases hp : p = "/"
        · subst hp
          rw [ensureDir_succ_none_root fuel m c r hg]
          exact hm₂ c' r' q
        · rw [ensureDir_succ_none fuel m c r p hg hp]
          have hm₃ : ∀ x y z,
              filesAt (Map.ensureDir fuel
                ((m.ensureCorpusRoot c r).setDir c r p emptyDir) c r (dirOf p))
                x y z = filesAt m x y z := by
            intro x y z
            rw [ih]
            exact hm₂ x y z
          rcases hg₃ : (Map.ensureDir fuel
              ((m.ensureCorpusRoot c r).setDir c r p emptyDir) c r
              (dirOf p)).getDir c r (dirOf p) with _ | parent
          · simp only [hg₃]
            exact hm₃ c' r' q
          · simp only [hg₃]
            rw [filesAt_setDir]
            by_cases hk : c' = c ∧ r' = r ∧ q = dirOf p
            · obtain ⟨hc, hr, hq⟩ := hk
              subst hc; subst hr
              rw [if_pos (show c' = c' ∧ r' = r' ∧ q = dirOf p from ⟨rfl, rfl, hq⟩)]
              have hpar : filesAt (Map.ensureDir fuel
                  ((m.ensureCorpusRoot c' r').setDir c' r' p emptyDir) c' r'
                  (dirOf p)) c' r' (dirOf p) = parent.fileTicket := by
                unfold filesAt
                rw [hg₃]
                rfl
              calc ({ parent with
                  subdirectory :=
                    addToSet parent.subdirectory (uriString c' r' p) } :
                      FileDirectory).fileTicket
                  = parent.fileTicket := rfl
                _ = filesAt m c' r' (dirOf p) := by rw [← hpar, hm₃]
                _ = filesAt m c' r' q := by rw [hq]
            · rw [if_neg hk]
              exact hm₃ c' r' q
      · rw [ensureDir_succ_some fuel m c r p d hg]
        unfold filesAt
        rw [getDir_ensureCorpusRoot]

theorem getDir_setDir_isSome_reflect (m : Map) (c r k : String)
    (d : FileDirectory) (c' r' q : String)
    (h : ((m.setDir c r k d).getDir c' r' q).isSome) :
    (m.getDir c' r' q).isSome ∨ (c' = c ∧ r' = r ∧ q = k) := by
  rw [getDir_setDir] at h
  by_cases hc : c' = c ∧ r' = r ∧ q = k
  · exact Or.inr hc
  · rw [if_neg hc] at h
    exact Or.inl h

/-- Records already present survive `ensureDir`. -/
theorem getDir_ensureDir_mono (fuel : ℕ) :
    ∀ (m : Map) (c r p c' r' q : String), (m.getDir c' r' q).isSome →
      ((Map.ensureDir fuel m c r p).getDir c' r' q).isSome := by
  induction fuel with
  | zero => intro m c r p c' r' q h; exact h
  | succ fuel ih =>
      intro m c r p c' r' q h
      have hecr : ((m.ensureCorpusRoot c r).getDir c' r' q).isSome := by
        rw [getDir_ensureCorpusRoot]; exact h
      rcases hg : (m.ensureCorpusRoot c r).getDir c r p with _ | d
      · by_cases hp : p = "/"
        · subst hp
          rw [ensureDir_succ_none_root fuel m c r hg]
          exact getDir_setDir_isSome_mono _ _ _ _ _ _ _ _ hecr
        · rw [ensureDir_succ_none fuel m c r p hg hp]
          have hm₃ : ((Map.ensureDir fuel
              ((m.ensureCorpusRoot c r).setDir c r p emptyDir) c r
              (dirOf p)).getDir c' r' q).isSome :=
            ih _ _ _ _ _ _ _ (getDir_setDir_isSome_mono _ _ _ _ _ _ _ _ hecr)
          rcases hg₃ : (Map.ensureDir fuel
              ((m.ensureCorpusRoot c r).setDir c r p emptyDir) c r
              (dirOf p)).getDir c r (dirOf p) with _ | parent
          · simp only [hg₃]
            exact hm₃
          · simp only [hg₃]
            exact getDir_setDir_isSome_mono _ _ _ _ _ _ _ _ hm₃
      · rw [ensureDir_succ_some fuel m c r p d hg]
        exact hecr

/-- `ensureDir` with any positive fuel establishes its own record. -/
theorem getDir_ensureDir_self (fuel : ℕ) (m : Map) (c r p : String) :
    ((Map.ensureDir (fuel + 1) m c r p).getDir c r p).isSome := by
  rcases hg : (m.ensureCorpusRoot c r).getDir c r p with _ | d
  · by_cases hp : p = "/"
    · subst hp
      rw [ensureDir_succ_none_root fuel m c r hg, getDir_setDir]
      simp
    · rw [ensureDir_succ_none fuel m c r p hg hp]
      have hm₂ : (((m.ensureCorpusRoot c r).setDir c r p
          emptyDir).getDir c r p).isSome := by
        rw [getDir_setDir]
        simp
      have hm₃ : ((Map.ensureDir fuel
          ((m.ensureCorpusRoot c r).setDir c r p emptyDir) c r
          (dirOf p)).getDir c r p).isSome :=
        getDir_ensureDir_mono fuel _ _ _ _ _ _ _ hm₂
      rcases hg₃ : (Map.ensureDir fuel
          ((m.ensureCorpusRoot c r).setDir c r p emptyDir) c r
          (dirOf p)).getDir c r (dirOf p) with _ | parent
      · simp only [hg₃]
        exact hm₃
      · simp only [hg₃]
        exact getDir_setDir_isSome_mono _ _ _ _ _ _ _ _ hm₃
  · rw [ensureDir_succ_some fuel m c r p d hg, hg]
    rfl

/-- `ensureDir` creates records only along the `dirOf` chain of its own
path, inside its own (corpus, root). -/
theorem getDir_ensureDir_reflect (fuel : ℕ) :
    ∀ (m : Map) (c r p c' r' q : String),
      ((Map.ensureDir fuel m c r p).getDir c' r' q).isSome →
      (m.getDir c' r' q).isSome ∨
        (c' = c ∧ r' = r ∧ ∃ k, dirOf^[k] p = q) := by
  induction fuel with
  | zero => intro m c r p c' r' q h; exact Or.inl h
  | succ fuel ih =>
      intro m c r p c' r' q h
      rcases hg : (m.ensureCorpusRoot c r).getDir c r p with _ | d
      · by_cases hp : p = "/"
        · subst hp
          rw [ensureDir_succ_none_root fuel m c r hg] at h
          rcases getDir_setDir_isSome_reflect _ _ _ _ _ _ _ _ h with h | h
          · rw [getDir_ensureCorpusRoot] at h
            exact Or.inl h
          · exact Or.inr ⟨h.1, h.2.1, 0, h.2.2.symm⟩
        · rw [ensureDir_succ_none fuel m c r p hg hp] at h
          have main : ((Map.ensureDir fuel
              ((m.ensureCorpusRoot c r).setDir c r p emptyDir) c r
              (dirOf p)).getDir c' r' q).isSome →
              (m.getDir c' r' q).isSome ∨
                (c' = c ∧ r' = r ∧ ∃ k, dirOf^[k] p = q) := by
            intro hm₃
            rcases ih _ _ _ _ _ _ _ hm₃ with h₂ | ⟨hc, hr, k, hk⟩
            · rcases getDir_setDir_isSome_reflect _ _ _ _ _ _ _ _ h₂ with h₁ | h₁
              · rw [getDir_ensureCorpusRoot] at h₁
                exact Or.inl h₁
              · exact Or.inr ⟨h₁.1, h₁.2.1, 0, h₁.2.2.symm⟩
            · refine Or.inr ⟨hc, hr, k + 1, ?_⟩
              rw [Function.iterate_succ_apply]
              exact hk
          rcases hg₃ : (Map.ensureDir fuel
              ((m.ensureCorpusRoot c r).setDir c r p emptyDir) c r
              (dirOf p)).getDir c r (dirOf p) with _ | parent
          · rw [hg₃] at h
            exact main h
          · rw [hg₃] at h
            simp only at h
            rcases getDir_setDir_isSome_reflect _ _ _ _ _ _ _ _ h with h₂ | h₂
            · exact main h₂
            · refine Or.inr ⟨h₂.1, h₂.2.1, 1, ?_⟩
              rw [Function.iterate_one]
              exact h₂.2.2.symm
      · rw [ensureDir_succ_some fuel m c r p d hg, getDir_ensureCorpusRoot] at h
        exact Or.inl h

/-- Any two sufficient fuels give the same `ensureDir` result: on the
cleaned rooted paths the code passes, the recursion bottoms out before
the fuel does. -/
theorem ensureDir_fuel_irrel :
    ∀ (f₁ f₂ : ℕ) (m : Map) (c r p : String), CleanRootedS p →
      p.length ≤ f₁ → p.length ≤ f₂ →
      Map.ensureDir f₁ m c r p = Map.ensureDir f₂ m c r p := by
  intro f₁
  induction f₁ with
  | zero =>
      intro f₂ m c r p hcr h₁ h₂
      have := cleanRooted_length_pos p hcr
      omega
  | succ f₁ ih =>
      intro f₂ m c r p hcr h₁ h₂
      cases f₂ with
      | zero =>
          have := cleanRooted_length_pos p hcr
          omega
      | succ f₂ =>
          rcases hg : (m.ensureCorpusRoot c r).getDir c r p with _ | d
          · by_cases hp : p = "/"
            · subst hp
              rw [ensureDir_succ_none_root f₁ m c r hg,
                ensureDir_succ_none_root f₂ m c r hg]
            · have hd := dirOf_cleanRooted p hcr hp
              have hrec := ih f₂
                ((m.ensureCorpusRoot c r).setDir c r p emptyDir) c r
                (dirOf p) hd.1 (by omega) (by omega)
              rw [ensureDir_succ_none f₁ m c r p hg hp,
                ensureDir_succ_none f₂ m c r p hg hp, hrec]
          · rw [ensureDir_succ_some f₁ m c r p d hg,
              ensureDir_succ_some f₂ m c r p d hg]

/-! ## The parent-link invariant

`InvE m S` says: every recorded directory other than `"/"` is linked
into its parent's `subdirectory` set — except possibly the triples in
the exception set `S` (used transiently while `ensureDir` has created a
record but not yet linked it). -/

/-- Parent-link invariant with an exception set. -/
def InvE (m : Map) (S : String → String → String → Prop) : Prop :=
  ∀ c r p d, m.getDir c r p = some d → p ≠ "/" →
    S c r p ∨ ∃ pd, m.getDir c r (dirOf p) = some pd ∧
      uriString c r p ∈ pd.subdirectory

/-- The parent-link invariant proper. -/
def Inv (m : Map) : Prop := InvE m (fun _ _ _ => False)

theorem inv_of_getDir_eq (m m' : Map) (S : String → String → String → Prop)
    (heq : ∀ c r q, m'.getDir c r q = m.getDir c r q) (h : InvE m S) :
    InvE m' S := by
  intro c r p d hget hp
  rcases h c r p d (by rw [← heq]; exact hget) hp with hS | ⟨pd, hpd, hmem⟩
  · exact Or.inl hS
  · exact Or.inr ⟨pd, by rw [heq]; exact hpd, hmem⟩

theorem inv_ensureCorpusRoot (m : Map) (c r : String)
    (S : String → String → String → Prop) (h : InvE m S) :
    InvE (m.ensureCorpusRoot c r) S :=
  inv_of_getDir_eq m _ S (fun c' r' q => getDir_ensureCorpusRoot m c r c' r' q) h

/-- Replacing a record with one whose `subdirectory` set is a superset
preserves the invariant. -/
theorem inv_setDir_grow (m : Map) (c₀ r₀ k : String) (d d₂ : FileDirectory)
    (S : String → String → String → Prop) (hInv : InvE m S)
    (hd : m.getDir c₀ r₀ k = some d)
    (hsub : ∀ x ∈ d.subdirectory, x ∈ d₂.subdirectory) :
    InvE (m.setDir c₀ r₀ k d₂) S := by
  intro c r p dd hget hp
  have parentStep : (∃ pd, m.getDir c r (dirOf p) = some pd ∧
      uriString c r p ∈ pd.subdirectory) →
      ∃ pd, (m.setDir c₀ r₀ k d₂).getDir c r (dirOf p) = some pd ∧
        uriString c r p ∈ pd.subdirectory := by
    rintro ⟨pd, hpd, hmem⟩
    by_cases hpar : c = c₀ ∧ r = r₀ ∧ dirOf p = k
    · obtain ⟨hc, hr, hk⟩ := hpar
      have hpdd : pd = d := by
        rw [hc, hr, hk, hd] at hpd
        exact (Option.some_inj.mp hpd).symm
      exact ⟨d₂, by rw [getDir_setDir, if_pos ⟨hc, hr, hk⟩],
        hsub _ (hpdd ▸ hmem)⟩
    · exact ⟨pd, by rw [getDir_setDir, if_neg hpar]; exact hpd, hmem⟩
  rw [getDir_setDir] at hget
  by_cases hkey : c = c₀ ∧ r = r₀ ∧ p = k
  · obtain ⟨hc, hr, hk⟩ := hkey
    rcases hInv c r p d (by rw [hc, hr, hk]; exact hd) hp with hS | hx
    · exact Or.inl hS
    · exact Or.inr (parentStep hx)
  · rw [if_neg hkey] at hget
    rcases hInv c r p dd hget hp with hS | hx
    · exact Or.inl hS
    · exact Or.inr (parentStep hx)

/-- Creating a fresh empty record adds (only) its own triple to the
exception set. -/
theorem inv_setDir_new (m : Map) (c₀ r₀ k : String)
    (S : String → String → String → Prop) (hInv : InvE m S)
    (hnone : m.getDir c₀ r₀ k = none) :
    InvE (m.setDir c₀ r₀ k emptyDir)
      (fun c r q => S c r q ∨ (c = c₀ ∧ r = r₀ ∧ q = k)) := by
  intro c r p dd hget hp
  rw [getDir_setDir] at hget
  by_cases hkey : c = c₀ ∧ r = r₀ ∧ p = k
  · exact Or.inl (Or.inr hkey)
  · rw [if_neg hkey] at hget
    rcases hInv c r p dd hget hp with hS | ⟨pd, hpd, hmem⟩
    · exact Or.inl (Or.inl hS)
    · by_cases hpar : c = c₀ ∧ r = r₀ ∧ dirOf p = k
      · obtain ⟨hc, hr, hk⟩ := hpar
        rw [hc, hr, hk, hnone] at hpd
        exact absurd hpd (by simp)
      · exact Or.inr ⟨pd, by rw [getDir_setDir, if_neg hpar]; exact hpd, hmem⟩

/-- Exceptions at the root path are vacuous and may be dropped. -/
theorem inv_drop_root (m : Map) (c₀ r₀ : String)
    (S : String → String → String → Prop)
    (h : InvE m (fun c r q => S c r q ∨ (c = c₀ ∧ r = r₀ ∧ q = "/"))) :
    InvE m S := by
  intro c r p d hget hp
  rcases h c r p d hget hp with (hS | hroot) | hx
  · exact Or.inl hS
  · exact absurd hroot.2.2 hp
  · exact Or.inr hx

/-- `ensureDir` preserves the invariant (with any exception set), given
a cleaned rooted path and sufficient fuel. -/
theorem ensureDir_inv (fuel : ℕ) :
    ∀ (S : String → String → String → Prop) (m : Map) (c r p : String),
      InvE m S → CleanRootedS p → p.length ≤ fuel →
      InvE (Map.ensureDir fuel m c r p) S := by
  induction fuel with
  | zero =>
      intro S m c r p _ hcr hlen
      exact absurd (cleanRooted_length_pos p hcr) (by omega)
  | succ fuel ih =>
      intro S m c r p hInv hcr hlen
      have hInv₁ := inv_ensureCorpusRoot m c r S hInv
      rcases hg : (m.ensureCorpusRoot c r).getDir c r p with _ | d
      · by_cases hp : p = "/"
        · subst hp
          rw [ensureDir_succ_none_root fuel m c r hg]
          exact inv_drop_root _ c r S (inv_setDir_new _ c r "/" S hInv₁ hg)
        · rw [ensureDir_succ_none fuel m c r p hg hp]
          have hd := dirOf_cleanRooted p hcr hp
          have hfd : 1 ≤ fuel := by
            have := cleanRooted_length_pos (dirOf p) hd.1
            omega
          have hInv₂ := inv_setDir_new _ c r p S hInv₁ hg
          have hInv₃ := ih _ _ c r (dirOf p) hInv₂ hd.1 (by omega)
          have hsome : ((Map.ensureDir fuel
              ((m.ensureCorpusRoot c r).setDir c r p emptyDir) c r
              (dirOf p)).getDir c r (dirOf p)).isSome := by
            obtain ⟨f', rfl⟩ : ∃ f', fuel = f' + 1 := ⟨fuel - 1, by omega⟩
            exact getDir_ensureDir_self f' _ c r (dirOf p)
          rcases hg₃ : (Map.ensureDir fuel
              ((m.ensureCorpusRoot c r).setDir c r p emptyDir) c r
              (dirOf p)).getDir c r (dirOf p) with _ | parent
          · rw [hg₃] at hsome
            exact absurd hsome (by simp)
          · simp only [hg₃]
            have hInv₄ := inv_setDir_grow _ c r (dirOf p) parent
              { parent with
                subdirectory :=
                  addToSet parent.subdirectory (uriString c r p) }
              _ hInv₃ hg₃
              (fun x hx => mem_addToSet_of_mem _ _ _ hx)
            intro c' r' q dd hget hp'
            have hparent : ((Map.ensureDir fuel
                ((m.ensureCorpusRoot c r).setDir c r p emptyDir) c r
                (dirOf p)).setDir c r (dirOf p)
                  { parent with
                    subdirectory :=
                      addToSet parent.subdirectory
                        (uriString c r p) }).getDir c r (dirOf p) =
                some { parent with
                  subdirectory :=
                    addToSet parent.subdirectory (uriString c r p) } := by
              rw [getDir_setDir,
                if_pos (show c = c ∧ r = r ∧ dirOf p = dirOf p from
                  ⟨rfl, rfl, rfl⟩)]
            rcases hInv₄ c' r' q dd hget hp' with (hS | hfix) | hx
            · exact Or.inl hS
            · obtain ⟨hc', hr', hq'⟩ := hfix
              subst hc'; subst hr'; subst hq'
              exact Or.inr ⟨_, hparent, mem_addToSet_self _ _⟩
            · exact Or.inr hx
      · rw [ensureDir_succ_some fuel m c r p d hg]
        exact hInv₁

/-- Under the invariant, the whole ancestor chain of an existing record
exists (memoized `ensureDir` calls rely on exactly this). -/
theorem inv_ancestors (m : Map) (S : String → String → String → Prop)
    (hInv : InvE m S) (c r : String) :
    ∀ (k : ℕ) (q : String), CleanRootedS q → (m.getDir c r q).isSome →
      (∀ j, ¬ S c r (dirOf^[j] q)) →
      (m.getDir c r (dirOf^[k] q)).isSome := by
  intro k
  induction k with
  | zero =>
      intro q _ h _
      rw [Function.iterate_zero_apply]
      exact h
  | succ k ih =>
      intro q hcr hsome havoid
      by_cases hq : q = "/"
      · subst hq
        rw [chain_root]
        rw [← chain_root 0] at hsome
        rw [chain_root] at hsome
        exact hsome
      · obtain ⟨d, hd⟩ := Option.isSome_iff_exists.mp hsome
        rcases hInv c r q d hd hq with hS | ⟨pd, hpd, _⟩
        · have h₀ := havoid 0
          rw [Function.iterate_zero_apply] at h₀
          exact absurd hS h₀
        · rw [Function.iterate_succ_apply]
          refine ih (dirOf q) (cleanRooted_dirOf q hcr)
            (by rw [hpd]; rfl) ?_
          intro j
          have hj := havoid (j + 1)
          rw [Function.iterate_succ_apply] at hj
          exact hj

/-- After `ensureDir` on a cleaned rooted path with sufficient fuel,
the whole ancestor chain of the path exists (exceptions in `S` are all
strictly longer than the path, so they cannot block the walk). -/
theorem ensureDir_chain (fuel : ℕ) :
    ∀ (S : String → String → String → Prop) (m : Map) (c r p : String),
      InvE m S → CleanRootedS p → p.length ≤ fuel →
      (∀ q, S c r q → p.length < q.length) →
      ∀ k, ((Map.ensureDir fuel m c r p).getDir c r (dirOf^[k] p)).isSome := by
  induction fuel with
  | zero =>
      intro S m c r p _ hcr hlen
      exact absurd (cleanRooted_length_pos p hcr) (by omega)
  | succ fuel ih =>
      intro S m c r p hInv hcr hlen hSb k
      have hInv₁ := inv_ensureCorpusRoot m c r S hInv
      rcases hg : (m.ensureCorpusRoot c r).getDir c r p with _ | d
      · by_cases hp : p = "/"
        · subst hp
          rw [ensureDir_succ_none_root fuel m c r hg, chain_root,
            getDir_setDir,
            if_pos (show c = c ∧ r = r ∧ ("/" : String) = "/" from
              ⟨rfl, rfl, rfl⟩)]
          rfl
        · rw [ensureDir_succ_none fuel m c r p hg hp]
          have hd := dirOf_cleanRooted p hcr hp
          have hInv₂ := inv_setDir_new _ c r p S hInv₁ hg
          have hSb' : ∀ q, (S c r q ∨ (c = c ∧ r = r ∧ q = p)) →
              (dirOf p).length < q.length := by
            intro q hq
            rcases hq with hq | hq
            · have := hSb q hq
              omega
            · rw [hq.2.2]
              exact hd.2
          have hchain := ih _ _ c r (dirOf p) hInv₂ hd.1 (by omega) hSb'
          rcases hg₃ : (Map.ensureDir fuel
              ((m.ensureCorpusRoot c r).setDir c r p emptyDir) c r
              (dirOf p)).getDir c r (dirOf p) with _ | parent
          · have h₀ := hchain 0
            rw [Function.iterate_zero_apply, hg₃] at h₀
            exact absurd h₀ (by simp)
          · simp only [hg₃]
            cases k with
            | zero =>
                rw [Function.iterate_zero_apply]
                refine getDir_setDir_isSome_mono _ _ _ _ _ _ _ _ ?_
                refine getDir_ensureDir_mono fuel _ _ _ _ _ _ _ ?_
                rw [getDir_setDir,
                  if_pos (show c = c ∧ r = r ∧ p = p from ⟨rfl, rfl, rfl⟩)]
                rfl
            | succ k =>
                rw [Function.iterate_succ_apply]
                exact getDir_setDir_isSome_mono _ _ _ _ _ _ _ _ (hchain k)
      · rw [ensureDir_succ_some fuel m c r p d hg]
        refine inv_ancestors _ S hInv₁ c r k p hcr (by rw [hg]; rfl) ?_
        intro j hSj
        have h₁ := hSb _ hSj
        have h₂ := (chain_cleanRooted p hcr j).2
        omega

/-! ## `AddFile` -/

theorem cleanRooted_dirPathOf (f : VName) : CleanRootedS (dirPathOf f) :=
  cleanRooted_dirOf _ (joinRoot_cleanRooted f.path)

/-- `AddFile` always reaches the `some` branch after `ensureDir`: it is
the `ensureDir` state followed by one files-set update at the containing
directory. -/
theorem AddFile_eq (m : Map) (f : VName) :
    ∃ dir,
      (Map.ensureDir ((dirPathOf f).length + 1) m f.corpus f.root
          (dirPathOf f)).getDir f.corpus f.root (dirPathOf f) = some dir ∧
      m.AddFile f =
        (Map.ensureDir ((dirPathOf f).length + 1) m f.corpus f.root
            (dirPathOf f)).setDir f.corpus f.root (dirPathOf f)
          { dir with
            fileTicket := addToSet dir.fileTicket (kytheuriToString f) } := by
  have hsome := getDir_ensureDir_self ((dirPathOf f).length) m f.corpus f.root
    (dirPathOf f)
  rcases hgg : (Map.ensureDir ((dirPathOf f).length + 1) m f.corpus f.root
      (dirPathOf f)).getDir f.corpus f.root (dirPathOf f) with _ | dir
  · rw [hgg] at hsome
    exact absurd hsome (by simp)
  · refine ⟨dir, rfl, ?_⟩
    simp only [dirPathOf] at hgg ⊢
    simp only [Map.AddFile, hgg]

theorem getDir_AddFile_mono (m : Map) (f : VName) (c' r' q : String)
    (h : (m.getDir c' r' q).isSome) : ((m.AddFile f).getDir c' r' q).isSome := by
  obtain ⟨dir, hgg, heq⟩ := AddFile_eq m f
  rw [heq]
  exact getDir_setDir_isSome_mono _ _ _ _ _ _ _ _
    (getDir_ensureDir_mono _ _ _ _ _ _ _ _ h)

/-- `AddFile` creates records only along the ancestor chain of the
file's containing directory, inside the file's (corpus, root). -/
theorem getDir_AddFile_reflect (m : Map) (f : VName) (c' r' q : String)
    (h : ((m.AddFile f).getDir c' r' q).isSome) :
    (m.getDir c' r' q).isSome ∨
      (c' = f.corpus ∧ r' = f.root ∧ ∃ k, dirOf^[k] (dirPathOf f) = q) := by
  obtain ⟨dir, hgg, heq⟩ := AddFile_eq m f
  rw [heq] at h
  rcases getDir_setDir_isSome_reflect _ _ _ _ _ _ _ _ h with h₁ | h₁
  · rcases getDir_ensureDir_reflect _ _ _ _ _ _ _ _ h₁ with h₂ | h₂
    · exact Or.inl h₂
    · exact Or.inr h₂
  · exact Or.inr ⟨h₁.1, h₁.2.1, 0, h₁.2.2.symm⟩

/-- `AddFile` leaves every other (corpus, root) pair untouched. -/
theorem dirs_AddFile_other (m : Map) (f : VName) (c' r' : String)
    (h : ¬(c' = f.corpus ∧ r' = f.root)) :
    (m.AddFile f).dirs c' r' = m.dirs c' r' := by
  obtain ⟨dir, hgg, heq⟩ := AddFile_eq m f
  rw [heq, dirs_setDir, if_neg h, dirs_ensureDir_other _ _ _ _ _ _ _ h]

/-- `AddFile` changes no files set other than the one of the file's own
containing directory. -/
theorem filesAt_AddFile_other (m : Map) (f : VName) (c' r' q : String)
    (h : q ≠ dirPathOf f) :
    filesAt (m.AddFile f) c' r' q = filesAt m c' r' q := by
  obtain ⟨dir, hgg, heq⟩ := AddFile_eq m f
  rw [heq, filesAt_setDir,
    if_neg (show ¬(c' = f.corpus ∧ r' = f.root ∧ q = dirPathOf f) from
      fun hh => h hh.2.2),
    filesAt_ensureDir]

/-- The files set of the containing directory after `AddFile`. -/
theorem filesAt_AddFile_self (m : Map) (f : VName) :
    filesAt (m.AddFile f) f.corpus f.root (dirPathOf f) =
      addToSet (filesAt m f.corpus f.root (dirPathOf f))
        (kytheuriToString f) := by
  obtain ⟨dir, hgg, heq⟩ := AddFile_eq m f
  have hdir : filesAt (Map.ensureDir ((dirPathOf f).length + 1) m f.corpus
      f.root (dirPathOf f)) f.corpus f.root (dirPathOf f) = dir.fileTicket := by
    unfold filesAt
    rw [hgg]
    rfl
  rw [heq, filesAt_setDir,
    if_pos (show f.corpus = f.corpus ∧ f.root = f.root ∧
      dirPathOf f = dirPathOf f from ⟨rfl, rfl, rfl⟩)]
  show addToSet dir.fileTicket (kytheuriToString f) = _
  rw [← hdir, filesAt_ensureDir]

/-- `AddFile` preserves the parent-link invariant. -/
theorem AddFile_inv (m : Map) (f : VName) (h : Inv m) : Inv (m.AddFile f) := by
  obtain ⟨dir, hgg, heq⟩ := AddFile_eq m f
  rw [heq]
  refine inv_setDir_grow _ _ _ _ dir _ _ ?_ hgg (fun x hx => hx)
  exact ensureDir_inv _ _ _ _ _ _ h (cleanRooted_dirPathOf f) (by omega)

/-- After `AddFile`, the whole ancestor chain of the file's containing
directory is recorded (given the invariant as a precondition). -/
theorem AddFile_chain (m : Map) (f : VName) (h : Inv m) (k : ℕ) :
    ((m.AddFile f).getDir f.corpus f.root
      (dirOf^[k] (dirPathOf f))).isSome := by
  obtain ⟨dir, hgg, heq⟩ := AddFile_eq m f
  rw [heq]
  refine getDir_setDir_isSome_mono _ _ _ _ _ _ _ _ ?_
  exact ensureDir_chain _ _ _ _ _ _ h (cleanRooted_dirPathOf f) (by omega)
    (fun q hq => absurd hq (fun hh => hh)) k

/-- Inserting the same file twice is a no-op the second time: the whole
index state is unchanged. -/
theorem AddFile_idem (m : Map) (f : VName) :
    (m.AddFile f).AddFile f = m.AddFile f := by
  obtain ⟨dir, hgg, heq⟩ := AddFile_eq m f
  have hgA : (m.AddFile f).getDir f.corpus f.root (dirPathOf f) =
      some { dir with
        fileTicket := addToSet dir.fileTicket (kytheuriToString f) } := by
    rw [heq, getDir_setDir,
      if_pos (show f.corpus = f.corpus ∧ f.root = f.root ∧
        dirPathOf f = dirPathOf f from ⟨rfl, rfl, rfl⟩)]
  have hdirs : (m.AddFile f).dirs f.corpus f.root ≠ none := by
    obtain ⟨ds, hds, _⟩ := getDir_some_dirs _ _ _ _ _ hgA
    rw [hds]
    simp
  have hecr : (m.AddFile f).ensureCorpusRoot f.corpus f.root = m.AddFile f :=
    ensureCorpusRoot_self _ _ _ hdirs
  have hg₁ : ((m.AddFile f).ensureCorpusRoot f.corpus f.root).getDir f.corpus
      f.root (dirPathOf f) =
      some { dir with
        fileTicket := addToSet dir.fileTicket (kytheuriToString f) } := by
    rw [hecr]
    exact hgA
  have hens : Map.ensureDir ((dirPathOf f).length + 1) (m.AddFile f) f.corpus
      f.root (dirPathOf f) = m.AddFile f := by
    rw [ensureDir_succ_some _ _ _ _ _ _ hg₁, hecr]
  obtain ⟨dir₂, hgg₂, heq₂⟩ := AddFile_eq (m.AddFile f) f
  rw [hens] at hgg₂
  rw [hgA] at hgg₂
  have hdir₂ : dir₂ = { dir with
      fileTicket := addToSet dir.fileTicket (kytheuriToString f) } :=
    (Option.some_inj.mp hgg₂).symm
  rw [heq₂, hens, hdir₂]
  have hfix : addToSet (addToSet dir.fileTicket (kytheuriToString f))
      (kytheuriToString f) = addToSet dir.fileTicket (kytheuriToString f) :=
    addToSet_of_mem _ _ (mem_addToSet_self _ _)
  have hrec : ({ { dir with
      fileTicket := addToSet dir.fileTicket (kytheuriToString f) } with
        fileTicket := addToSet (addToSet dir.fileTicket (kytheuriToString f))
          (kytheuriToString f) } : FileDirectory) =
      { dir with
        fileTicket := addToSet dir.fileTicket (kytheuriToString f) } := by
    rw [hfix]
  rw [hrec]
  exact setDir_self _ _ _ _ _ hgA

/-! ## Folding insertions from the empty map -/

theorem getDir_NewMap (c r p : String) : NewMap.getDir c r p = none := rfl

theorem inv_NewMap : Inv NewMap := by
  intro c r p d hget _
  rw [getDir_NewMap] at hget
  exact absurd hget (by simp)

theorem build_inv (fs : List VName) :
    ∀ m : Map, Inv m → Inv (fs.foldl Map.AddFile m) := by
  induction fs with
  | nil => intro m h; exact h
  | cons f fs ih =>
      intro m h
      exact ih (m.AddFile f) (AddFile_inv m f h)

theorem buildIndex_inv (fs : List VName) : Inv (buildIndex fs) :=
  build_inv fs NewMap inv_NewMap

/-- Existence characterization of one insertion (up from `reflect`,
`mono` and `chain`). -/
theorem getDir_AddFile_isSome_iff (m : Map) (f : VName) (c r P : String)
    (hInv : Inv m) :
    ((m.AddFile f).getDir c r P).isSome ↔
      ((m.getDir c r P).isSome ∨
        (f.corpus = c ∧ f.root = r ∧ ∃ k, dirOf^[k] (dirPathOf f) = P)) := by
  constructor
  · intro h
    rcases getDir_AddFile_reflect m f c r P h with h | ⟨hc, hr, hk⟩
    · exact Or.inl h
    · exact Or.inr ⟨hc.symm, hr.symm, hk⟩
  · intro h
    rcases h with h | ⟨hc, hr, k, hk⟩
    · exact getDir_AddFile_mono m f c r P h
    · subst hc; subst hr
      rw [← hk]
      exact AddFile_chain m f hInv k

/-- Existence characterization of a whole fold of insertions. -/
theorem getDir_build_isSome_iff (fs : List VName) :
    ∀ m : Map, Inv m → ∀ c r P,
      ((fs.foldl Map.AddFile m).getDir c r P).isSome ↔
        ((m.getDir c r P).isSome ∨
          ∃ f ∈ fs, f.corpus = c ∧ f.root = r ∧
            ∃ k, dirOf^[k] (dirPathOf f) = P) := by
  induction fs with
  | nil =>
      intro m _ c r P
      simp
  | cons f fs ih =>
      intro m hInv c r P
      rw [List.foldl_cons, ih (m.AddFile f) (AddFile_inv m f hInv) c r P,
        getDir_AddFile_isSome_iff m f c r P hInv]
      constructor
      · rintro ((h | h) | ⟨f', hf', hc⟩)
        · exact Or.inl h
        · exact Or.inr ⟨f, List.mem_cons_self f fs, h⟩
        · exact Or.inr ⟨f', List.mem_cons_of_mem f hf', hc⟩
      · rintro (h | ⟨f', hf', hc⟩)
        · exact Or.inl (Or.inl h)
        · rcases List.mem_cons.mp hf' with hf' | hf'
          · subst hf'
            exact Or.inl (Or.inr hc)
          · exact Or.inr ⟨f', hf', hc⟩

/-- Per-(corpus, root) presence after one insertion. -/
theorem dirs_AddFile_isSome_iff (m : Map) (f : VName) (c r : String) :
    ((m.AddFile f).dirs c r).isSome ↔
      ((m.dirs c r).isSome ∨ (f.corpus = c ∧ f.root = r)) := by
  by_cases hk : c = f.corpus ∧ r = f.root
  · obtain ⟨hc, hr⟩ := hk
    subst hc; subst hr
    obtain ⟨dir, hgg, heq⟩ := AddFile_eq m f
    constructor
    · intro _
      exact Or.inr ⟨rfl, rfl⟩
    · intro _
      rw [heq, dirs_setDir,
        if_pos (show f.corpus = f.corpus ∧ f.root = f.root from ⟨rfl, rfl⟩)]
      rfl
  · rw [dirs_AddFile_other m f c r hk]
    constructor
    · exact Or.inl
    · intro h
      rcases h with h | h
      · exact h
      · exact absurd ⟨h.1.symm, h.2.symm⟩ hk

/-- Per-(corpus, root) presence after a whole fold of insertions. -/
theorem dirs_build_isSome_iff (fs : List VName) :
    ∀ (m : Map) (c r : String),
      ((fs.foldl Map.AddFile m).dirs c r).isSome ↔
        ((m.dirs c r).isSome ∨ ∃ f ∈ fs, f.corpus = c ∧ f.root = r) := by
  induction fs with
  | nil => intro m c r; simp
  | cons f fs ih =>
      intro m c r
      rw [List.foldl_cons, ih (m.AddFile f) c r, dirs_AddFile_isSome_iff]
      constructor
      · rintro ((h | h) | ⟨f', hf', hc⟩)
        · exact Or.inl h
        · exact Or.inr ⟨f, List.mem_cons_self f fs, h⟩
        · exact Or.inr ⟨f', List.mem_cons_of_mem f hf', hc⟩
      · rintro (h | ⟨f', hf', hc⟩)
        · exact Or.inl (Or.inl h)
        · rcases List.mem_cons.mp hf' with hf' | hf'
          · subst hf'
            exact Or.inl (Or.inr hc)
          · exact Or.inr ⟨f', hf', hc⟩

/-! ## Key-uniqueness of the nested maps (Go maps cannot hold duplicate
keys; the association lists built from the empty map cannot either) -/

/-- All corpus keys are distinct and, within each corpus, all root keys
are distinct. -/
def NK (m : Map) : Prop :=
  (m.M.map Prod.fst).Nodup ∧ ∀ e ∈ m.M, (e.2.map Prod.fst).Nodup

theorem NK_NewMap : NK NewMap := by
  constructor
  · simp [NewMap]
  · intro e he
    simp [NewMap] at he

theorem NK_ensureCorpusRoot (m : Map) (c r : String) (h : NK m) :
    NK (m.ensureCorpusRoot c r) := by
  obtain ⟨h₁, h₂⟩ := h
  have hroots : (((getA m.M c).getD []).map Prod.fst).Nodup := by
    rcases hM : getA m.M c with _ | roots
    · simp
    · exact h₂ (c, roots) (getA_mem _ _ _ hM)
  constructor
  · exact setA_keys_nodup _ _ _ h₁
  · intro e he
    rcases mem_setA _ _ _ _ he with he' | he'
    · exact h₂ e he'
    · rw [he']
      exact setA_keys_nodup _ _ _ hroots

theorem NK_setDir (m : Map) (c r p : String) (d : FileDirectory) (h : NK m) :
    NK (m.setDir c r p d) := by
  obtain ⟨h₁, h₂⟩ := h
  have hroots : (((getA m.M c).getD []).map Prod.fst).Nodup := by
    rcases hM : getA m.M c with _ | roots
    · simp
    · exact h₂ (c, roots) (getA_mem _ _ _ hM)
  constructor
  · exact setA_keys_nodup _ _ _ h₁
  · intro e he
    rcases mem_setA _ _ _ _ he with he' | he'
    · exact h₂ e he'
    · rw [he']
      exact setA_keys_nodup _ _ _ hroots

theorem NK_ensureDir (fuel : ℕ) :
    ∀ (m : Map) (c r p : String), NK m → NK (Map.ensureDir fuel m c r p) := by
  induction fuel with
  | zero => intro m c r p h; exact h
  | succ fuel ih =>
      intro m c r p h
      rcases hg : (m.ensureCorpusRoot c r).getDir c r p with _ | d
      · by_cases hp : p = "/"
        · subst hp
          rw [ensureDir_succ_none_root fuel m c r hg]
          exact NK_setDir _ _ _ _ _ (NK_ensureCorpusRoot _ _ _ h)
        · rw [ensureDir_succ_none fuel m c r p hg hp]
          have h₃ : NK (Map.ensureDir fuel
              ((m.ensureCorpusRoot c r).setDir c r p emptyDir) c r (dirOf p)) :=
            ih _ _ _ _ (NK_setDir _ _ _ _ _ (NK_ensureCorpusRoot _ _ _ h))
          rcases hg₃ : (Map.ensureDir fuel
              ((m.ensureCorpusRoot c r).setDir c r p emptyDir) c r
              (dirOf p)).getDir c r (dirOf p) with _ | parent
          · simp only [hg₃]
            exact h₃
          · simp only [hg₃]
            exact NK_setDir _ _ _ _ _ h₃
      · rw [ensureDir_succ_some fuel m c r p d hg]
        exact NK_ensureCorpusRoot _ _ _ h

theorem NK_AddFile (m : Map) (f : VName) (h : NK m) : NK (m.AddFile f) := by
  obtain ⟨dir, hgg, heq⟩ := AddFile_eq m f
  rw [heq]
  exact NK_setDir _ _ _ _ _ (NK_ensureDir _ _ _ _ _ h)

theorem NK_build (fs : List VName) :
    ∀ m : Map, NK m → NK (fs.foldl Map.AddFile m) := by
  induction fs with
  | nil => intro m h; exact h
  | cons f fs ih => intro m h; exact ih (m.AddFile f) (NK_AddFile m f h)

theorem NK_buildIndex (fs : List VName) : NK (buildIndex fs) :=
  NK_build fs NewMap NK_NewMap

/-- The entries reported by `CorporaRoots` name exactly the (corpus,
root) pairs present in the index. -/
theorem corporaRoots_mem_iff (m : Map) (hNK : NK m) (c r : String) :
    (∃ e ∈ (m.CorporaRoots).1, e.corpus = c ∧ r ∈ e.roots) ↔
      (m.dirs c r).isSome := by
  constructor
  · rintro ⟨e, he, hc, hr⟩
    rw [Map.CorporaRoots] at he
    simp only [List.mem_map] at he
    obtain ⟨x, hx, hex⟩ := he
    rw [← hex] at hc hr
    simp only at hc hr
    have hgetc : getA m.M c = some x.2 := by
      rw [← hc]
      exact mem_getA_nodup _ _ _ hNK.1 (by rw [← Prod.mk.eta (p := x)] at hx; exact hx)
    rw [Map.dirs, hgetc, Option.some_bind]
    rw [getA_isSome_iff]
    exact hr
  · intro h
    rcases hM : getA m.M c with _ | roots
    · rw [Map.dirs, hM] at h
      exact absurd h (by simp)
    · rw [Map.dirs, hM, Option.some_bind] at h
      refine ⟨⟨c, roots.map Prod.fst⟩, ?_, rfl, ?_⟩
      · rw [Map.CorporaRoots]
        simp only [List.mem_map]
        exact ⟨(c, roots), getA_mem _ _ _ hM, rfl⟩
      · rw [← getA_isSome_iff]
        exact h

/-! ## Bridging lemmas for the claim statements -/

/-- `Map.Dir` is the verbatim three-level lookup with a `none` error. -/
theorem Dir_eq (m : Map) (c r p : String) :
    m.Dir c r p = (m.getDir c r p, none) := by
  rcases hM : getA m.M c with _ | roots
  · simp only [Map.Dir, Map.getDir, Map.dirs, hM, Option.none_bind]
  · rcases hR : getA roots r with _ | ds
    · simp only [Map.Dir, Map.getDir, Map.dirs, hM, hR, Option.some_bind,
        Option.none_bind]
    · simp only [Map.Dir, Map.getDir, Map.dirs, hM, hR, Option.some_bind]

theorem webClientDir_eq (m : Map) (c r p : String) :
    webClientDir m c r p = ((m.Dir c r p).1.getD emptyDir, none) := by
  rw [webClientDir, Dir_eq]

theorem cleanSegs_nil_cons (rooted : Bool) (acc : List (List Char))
    (l : List (List Char)) :
    cleanSegs rooted acc ([] :: l) = cleanSegs rooted acc l := by
  simp [cleanSegs]

/-- A bare path and its `"/"`-prefixed spelling normalize identically. -/
theorem joinRoot_absolute (p : String) : joinRoot p = joinRoot ("/" ++ p) := by
  show clean ("//" ++ p) = clean ("//" ++ ("/" ++ p))
  have h₁ : ("//" ++ p).data = '/' :: '/' :: p.data := by
    rw [String.data_append]
    rfl
  have h₂ : ("//" ++ ("/" ++ p)).data = '/' :: '/' :: '/' :: p.data := by
    rw [String.data_append, String.data_append]
    rfl
  show String.mk (cleanList ("//" ++ p).data) =
    String.mk (cleanList ("//" ++ ("/" ++ p)).data)
  rw [h₁, h₂, cleanList_slash_cons, cleanList_slash_cons]
  simp only [splitSlash_cons_slash, cleanSegs_nil_cons]

theorem getDir_buildIndex_isSome_iff (fs : List VName) (c r P : String) :
    ((buildIndex fs).getDir c r P).isSome ↔
      ∃ f ∈ fs, f.corpus = c ∧ f.root = r ∧
        ∃ k, dirOf^[k] (dirPathOf f) = P := by
  have h := getDir_build_isSome_iff fs NewMap inv_NewMap c r P
  rw [getDir_NewMap] at h
  simp only [Option.isSome_none, Bool.false_eq_true, false_or] at h
  exact h

theorem dirs_buildIndex_isSome_iff (fs : List VName) (c r : String) :
    ((buildIndex fs).dirs c r).isSome ↔
      ∃ f ∈ fs, f.corpus = c ∧ f.root = r := by
  have h := dirs_build_isSome_iff fs NewMap c r
  have hnone : NewMap.dirs c r = none := rfl
  rw [hnone] at h
  simp only [Option.isSome_none, Bool.false_eq_true, false_or] at h
  exact h

theorem foldl_if_filter (P : Entry → Prop) [DecidablePred P]
    (g : Map → Entry → Map) :
    ∀ (l : List Entry) (m : Map),
      l.foldl (fun acc en => if P en then g acc en else acc) m =
        (l.filter (fun en => decide (P en))).foldl g m := by
  intro l
  induction l with
  | nil => intro m; rfl
  | cons e rest ih =>
      intro m
      by_cases h : P e
      · simp only [List.foldl_cons, if_pos h, List.filter_cons,
          decide_eq_true h]
        exact ih (g m e)
      · simp only [List.foldl_cons, if_neg h, List.filter_cons,
          decide_eq_false h]
        exact ih m

/-! ## The claims -/

/-- Claim C1, counterexample: `Map.Dir` does not normalize its path
argument.  After inserting the file with bare path `"a/b.go"`, looking
the containing directory up as `"a"` is not the same as looking it up
as `"/a"` (the former is not-found, the latter finds the record). -/
theorem claim_C1_counterexample :
    ¬ (((buildIndex [⟨"c", "", "a/b.go"⟩]).Dir "c" "" "a").1 =
        ((buildIndex [⟨"c", "", "a/b.go"⟩]).Dir "c" "" "/a").1) := by
  decide

/-- Claim C1, amended: `Map.Dir` looks its path argument up verbatim
(no normalization), so the record inserted for bare path `"a/b.go"` is
found under the normalized spelling `"/a"` and not under the bare
spelling `"a"`. -/
theorem claim_C1 :
    (∀ (m : Map) (c r p : String), m.Dir c r p = (m.getDir c r p, none)) ∧
    ((buildIndex [⟨"c", "", "a/b.go"⟩]).Dir "c" "" "/a").1.isSome ∧
    ((buildIndex [⟨"c", "", "a/b.go"⟩]).Dir "c" "" "a").1 = none := by
  refine ⟨Dir_eq, ?_, ?_⟩ <;> decide

/-- Claim C2: after any sequence of `AddFile` calls from the empty map,
a record exists for (c, r, P) iff some inserted file with that corpus
and root has P on the ancestor chain of its containing directory; every
recorded non-root directory is linked in its parent's `subdirectory`
set; and concretely, inserting `/a/b/c.go` creates `/`, `/a`, `/a/b`
with `/a`'s subdirectories holding the reference of `/a/b` and `/`'s
holding the reference of `/a`. -/
theorem claim_C2 (fs : List VName) (c r P : String) :
    (((buildIndex fs).getDir c r P).isSome ↔
      ∃ f ∈ fs, f.corpus = c ∧ f.root = r ∧
        ∃ k, dirOf^[k] (dirPathOf f) = P) ∧
    (∀ d, (buildIndex fs).getDir c r P = some d → P ≠ "/" →
      ∃ pd, (buildIndex fs).getDir c r (dirOf P) = some pd ∧
        uriString c r P ∈ pd.subdirectory) ∧
    (((buildIndex [⟨"c", "r", "/a/b/c.go"⟩]).getDir "c" "r" "/").isSome ∧
      ((buildIndex [⟨"c", "r", "/a/b/c.go"⟩]).getDir "c" "r" "/a").isSome ∧
      ((buildIndex [⟨"c", "r", "/a/b/c.go"⟩]).getDir "c" "r" "/a/b").isSome ∧
      uriString "c" "r" "/a/b" ∈
        (((buildIndex [⟨"c", "r", "/a/b/c.go"⟩]).getDir "c" "r"
          "/a").getD emptyDir).subdirectory ∧
      uriString "c" "r" "/a" ∈
        (((buildIndex [⟨"c", "r", "/a/b/c.go"⟩]).getDir "c" "r"
          "/").getD emptyDir).subdirectory) := by
  refine ⟨getDir_buildIndex_isSome_iff fs c r P, ?_, ?_⟩
  · intro d hget hP
    rcases buildIndex_inv fs c r P d hget hP with h | h
    · exact absurd h (fun hh => hh)
    · exact h
  · refine ⟨?_, ?_, ?_, ?_, ?_⟩ <;> decide

theorem claim_C2_witness :
    ∃ pd, (buildIndex [⟨"c", "r", "/a/b/c.go"⟩]).getDir "c" "r"
        (dirOf "/a") = some pd ∧
      uriString "c" "r" "/a" ∈ pd.subdirectory :=
  (claim_C2 [⟨"c", "r", "/a/b/c.go"⟩] "c" "r" "/a").2.1
    ⟨[], [uriString "c" "r" "/a/b"]⟩ (by decide) (by decide)

/-- Claim C3: inserting the same file twice changes nothing the second
time (in particular the containing directory's files set is identical),
and `addToSet` never introduces duplicates. -/
theorem claim_C3 :
    (∀ (m : Map) (f : VName),
      filesAt ((m.AddFile f).AddFile f) f.corpus f.root (dirPathOf f) =
        filesAt (m.AddFile f) f.corpus f.root (dirPathOf f)) ∧
    (∀ (m : Map) (f : VName), (m.AddFile f).AddFile f = m.AddFile f) ∧
    (∀ (s : List String) (x : String), s.Nodup → (addToSet s x).Nodup) := by
  refine ⟨?_, AddFile_idem, addToSet_nodup⟩
  intro m f
  rw [AddFile_idem]

theorem claim_C3_witness :
    (filesAt ((NewMap.AddFile ⟨"c", "", "a/b.go"⟩).AddFile
        ⟨"c", "", "a/b.go"⟩) "c" "" (dirPathOf ⟨"c", "", "a/b.go"⟩) =
      filesAt (NewMap.AddFile ⟨"c", "", "a/b.go"⟩) "c" ""
        (dirPathOf ⟨"c", "", "a/b.go"⟩)) ∧
    (addToSet ["a"] "b").Nodup :=
  ⟨claim_C3.1 NewMap ⟨"c", "", "a/b.go"⟩,
    claim_C3.2.2 ["a"] "b" (by decide)⟩

/-- Claim C4: `Map.Dir` never returns an error; an unknown (corpus,
root) pair or a never-created directory gives the explicit not-found
result (nil record, nil error). -/
theorem claim_C4 (m : Map) (c r p : String) :
    ((m.Dir c r p).2 = none) ∧
    (m.dirs c r = none → m.Dir c r p = (none, none)) ∧
    (m.getDir c r p = none → (m.Dir c r p).1 = none) := by
  refine ⟨by rw [Dir_eq], ?_, ?_⟩
  · intro h
    rw [Dir_eq, Map.getDir, h, Option.none_bind]
  · intro h
    rw [Dir_eq, h]

theorem claim_C4_witness :
    ((buildIndex [⟨"c", "", "x.go"⟩]).Dir "unknown-corpus" "" "/").2 = none ∧
    (buildIndex [⟨"c", "", "x.go"⟩]).Dir "unknown-corpus" "" "/" =
      (none, none) :=
  ⟨(claim_C4 (buildIndex [⟨"c", "", "x.go"⟩]) "unknown-corpus" "" "/").1,
    (claim_C4 (buildIndex [⟨"c", "", "x.go"⟩]) "unknown-corpus" "" "/").2.1
      (by decide)⟩

/-- Claim C5: insertion roots every path at `"/"`: the bare path
`"a/b.go"` becomes `/a/b.go` with containing directory `/a`; the
ancestor map sends `/a` to `/` and fixes `/`; a path and its
`"/"`-prefixed spelling normalize identically; and `AddFile` only ever
creates records at cleaned rooted paths (never above `"/"`). -/
theorem claim_C5 :
    (joinRoot "a/b.go" = "/a/b.go") ∧
    (dirPathOf ⟨"c", "r", "a/b.go"⟩ = "/a") ∧
    (dirOf "/a" = "/") ∧
    (dirOf "/" = "/") ∧
    (∀ p : String, joinRoot p = joinRoot ("/" ++ p)) ∧
    (∀ (m : Map) (f : VName) (c r q : String),
      ((m.AddFile f).getDir c r q).isSome →
      (m.getDir c r q).isSome ∨ CleanRootedS q) := by
  refine ⟨by decide, by decide, by decide, by decide, joinRoot_absolute, ?_⟩
  intro m f c r q h
  rcases getDir_AddFile_reflect m f c r q h with h | ⟨_, _, k, hk⟩
  · exact Or.inl h
  · right
    rw [← hk]
    exact (chain_cleanRooted _ (cleanRooted_dirPathOf f) k).1

theorem claim_C5_witness :
    (NewMap.getDir "c" "" "/a").isSome ∨ CleanRootedS "/a" :=
  claim_C5.2.2.2.2.2 NewMap ⟨"c", "", "a/b.go"⟩ "c" "" "/a" (by decide)

/-- Claim C6: `CorporaRoots` never returns an error and reports, for
each corpus, exactly the roots under which files were inserted; the
empty index reports nothing; and the two-corpus example reports exactly
its two (corpus, root) pairs. -/
theorem claim_C6 (fs : List VName) :
    (((buildIndex fs).CorporaRoots).2 = none) ∧
    (∀ c r : String,
      (∃ e ∈ ((buildIndex fs).CorporaRoots).1, e.corpus = c ∧ r ∈ e.roots) ↔
        ∃ f ∈ fs, f.corpus = c ∧ f.root = r) ∧
    ((buildIndex []).CorporaRoots = ([], none)) ∧
    ((buildIndex [⟨"c1", "", "x.go"⟩, ⟨"c2", "r1", "y.go"⟩]).CorporaRoots =
      ([⟨"c1", [""]⟩, ⟨"c2", ["r1"]⟩], none)) := by
  refine ⟨rfl, ?_, rfl, by decide⟩
  intro c r
  rw [corporaRoots_mem_iff _ (NK_buildIndex fs) c r,
    dirs_buildIndex_isSome_iff]

/-- Claim C7: `Populate` fails exactly when the scan fails (wrapping
the underlying error); on a successful scan it inserts exactly the
entries whose fact name is the node-kind fact with the file-kind value;
and insertion itself always succeeds (the containing directory's record
always exists afterwards). -/
theorem claim_C7 :
    (∀ (m : Map) (e : String),
      m.Populate (Except.error e) =
        Except.error
          ("failed to Scan GraphStore for directory structure: " ++ e)) ∧
    (∀ (m : Map) (entries : List Entry),
      m.Populate (Except.ok entries) =
        Except.ok ((entries.filter (fun en =>
            decide (en.factName = nodeKindFact ∧
              en.factValue = fileKind))).foldl
          (fun acc en => acc.AddFile en.source) m)) ∧
    (∀ (m : Map) (f : VName),
      ((m.AddFile f).getDir f.corpus f.root (dirPathOf f)).isSome) := by
  refine ⟨fun m e => rfl, ?_, ?_⟩
  · intro m entries
    simp only [Map.Populate]
    rw [foldl_if_filter
      (fun en => en.factName = nodeKindFact ∧ en.factValue = fileKind)
      (fun acc en => acc.AddFile en.source) entries m]
  · intro m f
    obtain ⟨dir, hgg, heq⟩ := AddFile_eq m f
    rw [heq, getDir_setDir,
      if_pos (show f.corpus = f.corpus ∧ f.root = f.root ∧
        dirPathOf f = dirPathOf f from ⟨rfl, rfl, rfl⟩)]
    rfl

/-- Claim C8: on the paths it is actually given (cleaned rooted paths,
which is what `AddFile` always passes), each `ensureDir` recursion step
strictly shortens the path, the recursion bottoms out at `"/"`, and the
fuel embedding is irrelevant once it covers the path length — `AddFile`
is total and always establishes its directory record. -/
theorem claim_C8 :
    (∀ p : String, CleanRootedS p → p ≠ "/" →
      (dirOf p).length < p.length) ∧
    (∀ raw : String, CleanRootedS (dirOf (joinRoot raw))) ∧
    (∀ (f₁ f₂ : ℕ) (m : Map) (c r p : String), CleanRootedS p →
      p.length ≤ f₁ → p.length ≤ f₂ →
      Map.ensureDir f₁ m c r p = Map.ensureDir f₂ m c r p) ∧
    (∀ (m : Map) (f : VName),
      ((m.AddFile f).getDir f.corpus f.root (dirPathOf f)).isSome) := by
  refine ⟨fun p h hne => (dirOf_cleanRooted p h hne).2,
    fun raw => cleanRooted_dirOf _ (joinRoot_cleanRooted raw),
    ensureDir_fuel_irrel, ?_⟩
  intro m f
  obtain ⟨dir, hgg, heq⟩ := AddFile_eq m f
  rw [heq, getDir_setDir,
    if_pos (show f.corpus = f.corpus ∧ f.root = f.root ∧
      dirPathOf f = dirPathOf f from ⟨rfl, rfl, rfl⟩)]
  rfl

theorem claim_C8_witness :
    ((dirOf "/a").length < ("/a" : String).length) ∧
    (Map.ensureDir 3 NewMap "c" "r" "/a" =
      Map.ensureDir 5 NewMap "c" "r" "/a") := by
  have hCR : CleanRootedS "/a" := Or.inr ⟨[['a']], by decide, by decide⟩
  exact ⟨claim_C8.1 "/a" hCR (by decide),
    claim_C8.2.2.1 3 5 NewMap "c" "r" "/a" hCR (by decide) (by decide)⟩

/-- Claim C9: the remote-forwarding client (over the spec-modelled
transport) returns, for every query against a server backed by an index
built by any sequence of insertions, the same result as the local index
— up to the representation of not-found, which arrives as the
zero-valued record. -/
theorem claim_C9 (fs : List VName) (c r p : String) :
    (webClientDir (buildIndex fs) c r p =
      (((buildIndex fs).Dir c r p).1.getD emptyDir, none)) ∧
    (∀ d, ((buildIndex fs).Dir c r p).1 = some d →
      webClientDir (buildIndex fs) c r p = (d, none)) ∧
    (((buildIndex fs).Dir c r p).1 = none →
      webClientDir (buildIndex fs) c r p = (emptyDir, none)) ∧
    (webClientCorporaRoots (buildIndex fs) = (buildIndex fs).CorporaRoots) := by
  refine ⟨webClientDir_eq _ _ _ _, ?_, ?_, rfl⟩
  · intro d hd
    rw [webClientDir_eq, hd]
    rfl
  · intro hd
    rw [webClientDir_eq, hd]
    rfl

theorem claim_C9_witness :
    webClientDir (buildIndex ([] : List VName)) "c" "" "/" =
      (emptyDir, none) :=
  (claim_C9 [] "c" "" "/").2.2.1 (by decide)

/-- Claim C10: `AddFile` only modifies state under the inserted file's
own (corpus, root) pair, and within it only the files set of the file's
containing directory. -/
theorem claim_C10 (m : Map) (f : VName) (c r q : String) :
    (¬(c = f.corpus ∧ r = f.root) →
      (m.AddFile f).dirs c r = m.dirs c r) ∧
    (q ≠ dirPathOf f →
      filesAt (m.AddFile f) f.corpus f.root q =
        filesAt m f.corpus f.root q) :=
  ⟨dirs_AddFile_other m f c r, filesAt_AddFile_other m f f.corpus f.root q⟩

theorem claim_C10_witness :
    (((buildIndex [⟨"c", "r", "a.go"⟩]).AddFile
        ⟨"c", "r", "b/c.go"⟩).dirs "d" "" =
      (buildIndex [⟨"c", "r", "a.go"⟩]).dirs "d" "") ∧
    (filesAt ((buildIndex [⟨"c", "r", "a.go"⟩]).AddFile
        ⟨"c", "r", "b/c.go"⟩) "c" "r" "/x" =
      filesAt (buildIndex [⟨"c", "r", "a.go"⟩]) "c" "r" "/x") :=
  ⟨(claim_C10 (buildIndex [⟨"c", "r", "a.go"⟩]) ⟨"c", "r", "b/c.go"⟩
      "d" "" "/x").1 (by decide),
    (claim_C10 (buildIndex [⟨"c", "r", "a.go"⟩]) ⟨"c", "r", "b/c.go"⟩
      "d" "" "/x").2 (by decide)⟩

end Filetree
